import Mathlib

/-!
# Verification of the CNS document search engine (`src/search_engine.py`)

Shallow embedding of the core of the repository: text normalization and
tokenization (`TextProcessor`), the inverted index (`InvertedIndex`),
boolean-query evaluation with quoted phrases and parenthesized groups,
phrase matching, scoring and result ranking (`CNSSearchEngine`).

Modelling conventions:
* Strings are `List Char` (`Str`).  Python sets of document ids are modelled
  as duplicate-free `List Nat` values in a deterministic (insertion) order;
  `list(a_set)` is the identity in the model, and `set.add`, `update`,
  `intersection_update`, `difference_update` are the corresponding list
  operations.  Claims about result *sets* are stated via membership.
* Python dicts are association lists (`alistFind` / `alistSet`); the
  `defaultdict(set)` read used by `_search_term` is modelled by `ddRead`,
  which inserts an empty entry on a missing key exactly as Python's
  `defaultdict.__getitem__` does.  Every search-path function threads the
  index state explicitly (the `...St` functions) so that "search does not
  mutate the index" is a provable statement, not an artifact.
* Unicode lowercasing + NFKD + combining-mark stripping is modelled by the
  finite table `foldTable`, restricted to the Latin-1 letters relevant to
  the corpus; it is the identity on `[a-z0-9]` and whitespace, which is the
  only property the proofs rely on.
* Scores are `Nat`: the Python floats are sums of `3.0` and `1.0`, which are
  exact in floating point, with weight `3.0 ↦ 3` and `1.0 ↦ 1`.
* The `while '(' in query` loop of `_parse_boolean_query` is modelled with
  explicit fuel `count '(' query`; each iteration removes exactly one `'('`
  (proved below), so this fuel is exact.
-/

abbrev Str := List Char

/-- Whitespace, as matched by Python's `\s` / `str.split()` / `str.strip()`
(restricted to the ASCII whitespace characters). -/
def isWS (c : Char) : Bool := c = ' ' || c = '\t' || c = '\n' || c = '\r'

/-- Lower-case ASCII letters and digits: the character class `[a-z0-9]`. -/
def isLowerAlnum (c : Char) : Bool :=
  ('a' ≤ c && c ≤ 'z') || ('0' ≤ c && c ≤ '9')

/-- Table for `str.lower` + `unicodedata.normalize('NFKD', ·)` + dropping
combining marks, restricted to ASCII uppercase and the Latin-1 accented
letters appearing in Portuguese text. -/
def foldTable : List (Char × Char) :=
  [('A', 'a'), ('B', 'b'), ('C', 'c'), ('D', 'd'), ('E', 'e'), ('F', 'f'),
   ('G', 'g'), ('H', 'h'), ('I', 'i'), ('J', 'j'), ('K', 'k'), ('L', 'l'),
   ('M', 'm'), ('N', 'n'), ('O', 'o'), ('P', 'p'), ('Q', 'q'), ('R', 'r'),
   ('S', 's'), ('T', 't'), ('U', 'u'), ('V', 'v'), ('W', 'w'), ('X', 'x'),
   ('Y', 'y'), ('Z', 'z'),
   ('á', 'a'), ('à', 'a'), ('â', 'a'), ('ã', 'a'), ('ä', 'a'),
   ('é', 'e'), ('è', 'e'), ('ê', 'e'), ('ë', 'e'),
   ('í', 'i'), ('ì', 'i'), ('î', 'i'), ('ï', 'i'),
   ('ó', 'o'), ('ò', 'o'), ('ô', 'o'), ('õ', 'o'), ('ö', 'o'),
   ('ú', 'u'), ('ù', 'u'), ('û', 'u'), ('ü', 'u'), ('ç', 'c'), ('ñ', 'n'),
   ('Á', 'a'), ('À', 'a'), ('Â', 'a'), ('Ã', 'a'), ('Ä', 'a'),
   ('É', 'e'), ('È', 'e'), ('Ê', 'e'), ('Ë', 'e'),
   ('Í', 'i'), ('Ì', 'i'), ('Î', 'i'), ('Ï', 'i'),
   ('Ó', 'o'), ('Ò', 'o'), ('Ô', 'o'), ('Õ', 'o'), ('Ö', 'o'),
   ('Ú', 'u'), ('Ù', 'u'), ('Û', 'u'), ('Ü', 'u'), ('Ç', 'c'), ('Ñ', 'n')]

/-- One character of `text.lower()` followed by NFKD-decomposition with the
combining marks removed (see `foldTable`). -/
def foldChar (c : Char) : Char :=
  match foldTable.find? (fun e => e.1 = c) with
  | some e => e.2
  | none => c

/-- One character of `re.sub(r'[^a-z0-9\s]', ' ', text)`. -/
def keepOrSpace (c : Char) : Char :=
  if isLowerAlnum c || isWS c then c else ' '

/-- `str.split()`: split on whitespace runs, dropping empty pieces
(auxiliary, accumulating the current word reversed). -/
def splitWordsAux : Str → Str → List Str
  | [], acc => if acc.isEmpty then [] else [acc.reverse]
  | c :: cs, acc =>
    if isWS c then
      if acc.isEmpty then splitWordsAux cs []
      else acc.reverse :: splitWordsAux cs []
    else splitWordsAux cs (c :: acc)

def splitWords (s : Str) : List Str := splitWordsAux s []

/-- `' '.join(words)`. -/
def joinSpace : List Str → Str
  | [] => []
  | [w] => w
  | w :: ws => w ++ ' ' :: joinSpace ws

/-- `TextProcessor.normalize_text`: lower-case, strip diacritics, replace
characters outside `[a-z0-9\s]` with a space, collapse whitespace runs and
trim.  The collapse-and-trim (`re.sub(r'\s+', ' ', ·).strip()`) is
`' '.join(text.split())`, modelled by `joinSpace ∘ splitWords`. -/
def normalize_text (text : Str) : Str :=
  joinSpace (splitWords ((text.map foldChar).map keepOrSpace))

/-- The stopword set of `TextProcessor.__init__` (verbatim). -/
def stopwords : List Str :=
  (["a", "o", "e", "de", "da", "do", "das", "dos", "em", "para", "por",
    "com", "no", "na", "nos", "nas", "um", "uma", "uns", "umas", "se",
    "que", "quando", "onde", "como", "mais", "muito", "mas", "ou", "pelo",
    "pela", "pelos", "pelas", "ao", "aos", "às", "ser", "estar", "ter",
    "haver", "seu", "sua", "seus", "suas", "meu", "minha", "meus",
    "minhas", "nosso", "nossa", "nossos", "nossas", "ele", "ela", "eles",
    "elas", "este", "esta", "estes", "estas", "esse", "essa", "esses",
    "essas", "aquele", "aquela", "aqueles", "aquelas", "foi", "é", "são",
    "foram", "sendo", "sido"] : List String).map String.toList

/-- `TextProcessor.tokenize`: split the normalized text on whitespace and
keep tokens longer than 2 characters that are not stopwords. -/
def tokenize (text : Str) : List Str :=
  (splitWords (normalize_text text)).filter
    (fun token => decide (2 < token.length ∧ token ∉ stopwords))

/-! ## Python sets of document ids, dicts, and the document record -/

/-- `a_set.add x` (sets of ids are duplicate-free lists in insertion order). -/
def listInsert (l : List Nat) (x : Nat) : List Nat :=
  if x ∈ l then l else l ++ [x]

/-- `a_set.update b` (`|=`). -/
def listUnion (a b : List Nat) : List Nat := b.foldl listInsert a

/-- `a_set.intersection_update b`. -/
def listInter (a b : List Nat) : List Nat := a.filter (fun x => decide (x ∈ b))

/-- `a_set.difference_update b`. -/
def listDiff (a b : List Nat) : List Nat := a.filter (fun x => decide (x ∉ b))

/-- `set(a_list)`. -/
def toSet (l : List Nat) : List Nat := l.foldl listInsert []

/-- Dict lookup (`d.get(k)` / `k in d`); first matching key. -/
def alistFind {κ β : Type} [DecidableEq κ] : List (κ × β) → κ → Option β
  | [], _ => none
  | (k', v) :: rest, k => if k' = k then some v else alistFind rest k

/-- Dict assignment `d[k] = v`: update in place or append a new entry. -/
def alistSet {κ β : Type} [DecidableEq κ] : List (κ × β) → κ → β → List (κ × β)
  | [], k, v => [(k, v)]
  | (k', v') :: rest, k, v =>
    if k' = k then (k', v) :: rest else (k', v') :: alistSet rest k v

/-- `defaultdict(set)` item read: a missing key is inserted with an empty
set (this is what `self.index[term]` does when `term` is absent). -/
def ddRead (m : List (Str × List Nat)) (k : Str) :
    List Nat × List (Str × List Nat) :=
  match alistFind m k with
  | some v => (v, m)
  | none => ([], m ++ [(k, [])])

/-- `self.index[token].add(doc_id)` on the `defaultdict(set)`. -/
def ddAdd : List (Str × List Nat) → Str → Nat → List (Str × List Nat)
  | [], k, d => [(k, [d])]
  | (k', v) :: rest, k, d =>
    if k' = k then (k', listInsert v d) :: rest else (k', v) :: ddAdd rest k d

/-- A document row.  `titulo = none` models a row without the `'titulo'`
key; `texto = none` models a missing `'texto'` key or a `NaN` value (the
code always guards `'texto' in document and not pd.isna(document['texto'])`). -/
structure Doc where
  titulo : Option Str
  texto : Option Str
  data_publicacao : Str
  link : Str
deriving DecidableEq

/-- `InvertedIndex` state: `self.index` (term → posting set) and
`self.documents` (id → document). -/
structure Index where
  index : List (Str × List Nat)
  documents : List (Nat × Doc)
deriving DecidableEq

def emptyIndex : Index := ⟨[], []⟩

/-- The `"title:"` key tag used for title-token postings. -/
def titleTag : Str := ("title:").toList

/-- `InvertedIndex.add_document`: store the document, insert every title
token under both the plain key and the `"title:"`-tagged key, and every
body token under the plain key only. -/
def add_document (idx : Index) (doc_id : Nat) (document : Doc) : Index :=
  let docs := alistSet idx.documents doc_id document
  let m1 := match document.titulo with
    | some t =>
      (tokenize t).foldl
        (fun m token => ddAdd (ddAdd m token doc_id) (titleTag ++ token) doc_id)
        idx.index
    | none => idx.index
  let m2 := match document.texto with
    | some t => (tokenize t).foldl (fun m token => ddAdd m token doc_id) m1
    | none => m1
  ⟨m2, docs⟩

/-- Index construction: a sequence of `add_document` calls from the empty
index (as the `load_data` loop does). -/
def buildIndex (entries : List (Nat × Doc)) : Index :=
  entries.foldl (fun idx e => add_document idx e.1 e.2) emptyIndex

/-- The posting set of a key (empty when absent). -/
def postings (m : List (Str × List Nat)) (t : Str) : List Nat :=
  (alistFind m t).getD []

/-! ## Search-path functions, threading the index state -/

/-- `InvertedIndex._search_term`: normalize the whole term, return its
posting set if the key is present, `[]` otherwise.  The state component
records what the `defaultdict` read would do to `self.index`. -/
def search_termSt (idx : Index) (term : Str) : List Nat × Index :=
  let n := normalize_text term
  if (alistFind idx.index n).isSome then
    let r := ddRead idx.index n
    (r.1, { idx with index := r.2 })
  else ([], idx)

/-- `str.strip()`. -/
def trim (s : Str) : Str :=
  ((s.dropWhile isWS).reverse.dropWhile isWS).reverse

/-- Substring test, Python's `needle in haystack` for strings. -/
def occursIn (t : Str) : Str → Bool
  | [] => t.isEmpty
  | c :: cs => t.isPrefixOf (c :: cs) || occursIn t cs

/-- `' '.join(doc title and body)` content used by phrase filtering. -/
def docContent (doc : Doc) : Str :=
  (match doc.titulo with | some t => t ++ [' '] | none => []) ++
  (match doc.texto with | some t => t | none => [])

/-- `InvertedIndex._search_phrase`: candidates from the first token's
posting set, then keep documents whose normalized title+body contains the
space-joined normalized phrase tokens as a substring.  A candidate id
absent from `self.documents` would raise `KeyError` in Python; the model
rejects it (unreachable for indexes built by `add_document`). -/
def search_phraseSt (idx : Index) (phrase : Str) : List Nat × Index :=
  match tokenize phrase with
  | [] => ([], idx)
  | t0 :: _ =>
    let r := search_termSt idx t0
    let candidate_docs := toSet r.1
    (candidate_docs.filter (fun doc_id =>
      match alistFind r.2.documents doc_id with
      | none => false
      | some doc =>
        occursIn (joinSpace (tokenize phrase)) (normalize_text (docContent doc))),
     r.2)

/-- Placeholder-table entries (`sub_results`). -/
abbrev Subs := List (Str × List Nat)

/-- `sub_results.get(term, set())`. -/
def subGet (subs : Subs) (k : Str) : List Nat := (alistFind subs k).getD []

def subTag : Str := ("__SUB__").toList
def phraseTag : Str := ("__PHRASE__").toList

/-- `term.startswith('__SUB__') or term.startswith('__PHRASE__')`. -/
def isPlaceholder (term : Str) : Bool :=
  subTag.isPrefixOf term || phraseTag.isPrefixOf term

/-- Resolve one query word: placeholders via `sub_results`, everything else
via `_search_term` (wrapped in `set(...)`). -/
def termResultSt (idx : Index) (subs : Subs) (term : Str) : List Nat × Index :=
  if isPlaceholder term then (subGet subs term, idx)
  else
    let r := search_termSt idx term
    (toSet r.1, r.2)

def notWord : Str := ("NOT").toList
def andWord : Str := ("AND").toList

/-- The scanning loop of `_parse_and_not`: `NOT` followed by a word makes
that word negative, `AND` is skipped, everything else (including a trailing
`NOT` with no following word) is a positive term. -/
def classify : List Str → List Str × List Str
  | [] => ([], [])
  | [p] => if p = andWord then ([], []) else ([p], [])
  | p :: q :: rest =>
    if p = notWord then
      let r := classify rest
      (r.1, q :: r.2)
    else if p = andWord then classify (q :: rest)
    else
      let r := classify (q :: rest)
      (p :: r.1, r.2)

/-- Resolve a list of terms in order, threading the index state. -/
def lookupTermsSt (idx : Index) (subs : Subs) : List Str → List (List Nat) × Index
  | [] => ([], idx)
  | t :: ts =>
    let r := termResultSt idx subs t
    let rs := lookupTermsSt r.2 subs ts
    (r.1 :: rs.1, rs.2)

/-- `result_sets[0]` intersected with the rest. -/
def intersectList : List (List Nat) → List Nat
  | [] => []
  | s :: rest => rest.foldl listInter s

/-- `InvertedIndex._parse_and_not`. -/
def parse_and_notSt (idx : Index) (subs : Subs) (query_part : Str) :
    List Nat × Index :=
  let parts := splitWords query_part
  let pn := classify parts
  if pn.1.isEmpty then ([], idx)
  else
    let pos := lookupTermsSt idx subs pn.1
    let base := intersectList pos.1
    let neg := lookupTermsSt pos.2 subs pn.2
    (neg.1.foldl listDiff base, neg.2)

def orSep : Str := (" OR ").toList

/-- First occurrence split: `some (before, after)` when `sep` occurs. -/
def splitFirst (sep : Str) : Str → Option (Str × Str)
  | [] => if sep.isPrefixOf [] then some ([], []) else none
  | c :: cs =>
    if sep.isPrefixOf (c :: cs) then some ([], (c :: cs).drop sep.length)
    else
      match splitFirst sep cs with
      | some r => some (c :: r.1, r.2)
      | none => none

/-- `query.split(' OR ')`, with fuel (each split consumes the nonempty
separator, so `s.length` steps always suffice). -/
def splitOnSepF : Nat → Str → List Str
  | 0, s => [s]
  | fuel + 1, s =>
    match splitFirst orSep s with
    | none => [s]
    | some r => r.1 :: splitOnSepF fuel r.2

def orSplit (s : Str) : List Str := splitOnSepF s.length s

/-- The OR-union loop of `_evaluate_simple_query`: strip each part, skip
empty parts, union the clause results into the accumulator in order. -/
def evalOrPartsSt (idx : Index) (subs : Subs) (acc : List Nat) :
    List Str → List Nat × Index
  | [] => (acc, idx)
  | p :: ps =>
    if (trim p).isEmpty then evalOrPartsSt idx subs acc ps
    else
      let r := parse_and_notSt idx subs (trim p)
      evalOrPartsSt r.2 subs (listUnion acc r.1) ps

/-- `InvertedIndex._evaluate_simple_query`. -/
def evaluate_simple_querySt (idx : Index) (subs : Subs) (query : Str) :
    List Nat × Index :=
  evalOrPartsSt idx subs [] (orSplit query)

/-- `re.findall(r'"([^"]+)"', query)` as a left-to-right scan.  The second
argument is `none` outside quotes and `some acc` (content so far, reversed)
after an opening quote; a closing quote over empty content is not a match
(`[^"]+` needs at least one character) and instead re-opens, exactly as the
regex engine restarts at that quote.  An unclosed quote yields no further
matches. -/
def findPhrasesAux : Str → Option Str → List Str
  | [], _ => []
  | c :: cs, none =>
    if c = '"' then findPhrasesAux cs (some []) else findPhrasesAux cs none
  | c :: cs, some acc =>
    if c = '"' then
      if acc.isEmpty then findPhrasesAux cs (some [])
      else acc.reverse :: findPhrasesAux cs none
    else findPhrasesAux cs (some (c :: acc))

def findPhrases (s : Str) : List Str := findPhrasesAux s none

/-- `s.replace(old, new, 1)`. -/
def replaceFirst : Str → Str → Str → Str
  | [], old, new => if old.isPrefixOf [] then new else []
  | c :: cs, old, new =>
    if old.isPrefixOf (c :: cs) then new ++ (c :: cs).drop old.length
    else c :: replaceFirst cs old new

/-- `f'__PHRASE__{i+1000}__'`. -/
def phrasePlaceholder (i : Nat) : Str :=
  phraseTag ++ Nat.toDigits 10 (i + 1000) ++ ("__").toList

/-- `f'__SUB__{placeholder_id}__'`. -/
def subPlaceholder (i : Nat) : Str :=
  subTag ++ Nat.toDigits 10 i ++ ("__").toList

/-- The phrase-substitution loop: replace the first occurrence of each
quoted phrase with its placeholder. -/
def stripPhrases : Str → List (Nat × Str) → Str
  | q, [] => q
  | q, (i, ph) :: rest =>
    stripPhrases (replaceFirst q ('"' :: ph ++ ['"']) (phrasePlaceholder i)) rest

/-- The phrase-evaluation loop: `sub_results[placeholder] = set(_search_phrase(phrase))`. -/
def storePhrasesSt (idx : Index) (subs : Subs) : List (Nat × Str) → Subs × Index
  | [] => (subs, idx)
  | (i, ph) :: rest =>
    let r := search_phraseSt idx ph
    storePhrasesSt r.2 (alistSet subs (phrasePlaceholder i) (toSet r.1)) rest

/-- Leftmost match of `re.search(r'\(([^()]+)\)', query)`: the content of
the first innermost parenthesized group with nonempty paren-free content. -/
def notParen (c : Char) : Bool := !(c = '(' || c = ')')

def findGroup : Str → Option Str
  | [] => none
  | c :: cs =>
    if c = '(' then
      let content := cs.takeWhile notParen
      match cs.dropWhile notParen with
      | ')' :: _ => if content.isEmpty then findGroup cs else some content
      | _ => findGroup cs
    else findGroup cs

/-- The `while '(' in query` loop of `_parse_boolean_query`: evaluate the
innermost group, store its result under a fresh `__SUB__n__` placeholder,
substitute, repeat; `none` when no well-formed group can be found while a
`'('` remains (the malformed case, which yields `[]` for the whole query).
Fuel: each successful iteration removes exactly one `'('`, so
`count '(' query` is exact; the fuel-exhaustion branch reuses the
malformed answer and is unreachable from `parse_boolean_querySt`
(see `parenLoopSt_fuel_irrelevant`). -/
def parenLoopSt (idx : Index) : Nat → Str → Subs → Nat →
    Option (Str × Subs) × Index
  | 0, q, subs, _ => (if '(' ∈ q then none else some (q, subs), idx)
  | fuel + 1, q, subs, pid =>
    if '(' ∈ q then
      match findGroup q with
      | none => (none, idx)
      | some content =>
        let r := evaluate_simple_querySt idx subs content
        let subs1 := alistSet subs (subPlaceholder pid) r.1
        let q1 := replaceFirst q ('(' :: content ++ [')']) (subPlaceholder pid)
        parenLoopSt r.2 fuel q1 subs1 (pid + 1)
    else (some (q, subs), idx)

/-- `InvertedIndex._parse_boolean_query` (also `InvertedIndex.search`). -/
def parse_boolean_querySt (idx : Index) (query : Str) : List Nat × Index :=
  let q := trim query
  let phrases := findPhrases q
  let q1 := stripPhrases q phrases.enum
  let sp := storePhrasesSt idx [] phrases.enum
  match parenLoopSt sp.2 (q1.count '(') q1 sp.1 0 with
  | (none, idx2) => ([], idx2)
  | (some qs, idx2) =>
    let r := evaluate_simple_querySt idx2 qs.2 qs.1
    (r.1, r.2)

/-! ## Ranking, snippets, and `CNSSearchEngine.search` -/

/-- `CNSSearchEngine._calculate_score`, with the exact float arithmetic
`3.0`/`1.0` carried as `Nat` weights `3`/`1`. -/
def calculate_score (document : Doc) (query_tokens : List Str) : Nat :=
  let titleScore := match document.titulo with
    | some t =>
      let title_tokens := tokenize t
      query_tokens.foldl (fun s token => if token ∈ title_tokens then s + 3 else s) 0
    | none => 0
  let bodyScore := match document.texto with
    | some t =>
      let pdf_tokens := tokenize t
      query_tokens.foldl (fun s token => s + pdf_tokens.count token) 0
    | none => 0
  titleScore + bodyScore

/-- `str.lower()` on one character (ASCII; the engine only passes already
normalized lowercase query tokens here). -/
def lowerChar (c : Char) : Char :=
  if 'A' ≤ c && c ≤ 'Z' then Char.ofNat (c.toNat + 32) else c

/-- `range(0, stop, 20)` over natural `stop` (empty when the Python bound
`len(text) - max_length` is not positive). -/
def strideRange (stop : Nat) : List Nat :=
  (List.range ((stop + 19) / 20)).map (fun k => k * 20)

/-- The window-scanning loop of `extract_snippet`: track
`(max_matches, best_position)`, replacing only on strictly more matches. -/
def snippetBest (text : Str) (query_terms : List Str) (max_length : Nat) :
    Nat × Nat :=
  (strideRange (text.length - max_length)).foldl
    (fun best i =>
      let snippet_tokens := tokenize ((text.drop i).take max_length)
      let hits :=
        (query_terms.filter (fun term => decide (term.map lowerChar ∈ snippet_tokens))).length
      if best.1 < hits then (hits, i) else best)
    (0, 0)

def dots : Str := ("...").toList

/-- `TextProcessor.extract_snippet` (the `pd.isna(text)` test is always
false here because the engine passes `str(...)`). -/
def extract_snippet (text : Str) (query_terms : List Str) (max_length : Nat) : Str :=
  if query_terms.isEmpty then
    if max_length < text.length then text.take max_length ++ dots else text
  else
    let best_position := (snippetBest text query_terms max_length).2
    let snippet := (text.drop best_position).take max_length
    let s1 := if 0 < best_position then dots ++ snippet else snippet
    if best_position + max_length < text.length then s1 ++ dots else s1

/-- `SearchResult`. -/
structure SearchResult where
  id : Nat
  titulo : Str
  score : Nat
  snippet : Str
  data_publicacao : Str
  link : Str
deriving DecidableEq

/-- A missing document id would raise `KeyError` in
`self.index.documents[doc_id]`; the model substitutes an empty record
(unreachable for ids produced by searching a built index). -/
def defaultDoc : Doc := ⟨none, none, [], []⟩

/-- Build one `SearchResult` for a retained id. -/
def mkResult (idx : Index) (query_tokens : List Str) (doc_id : Nat) : SearchResult :=
  let doc := (alistFind idx.documents doc_id).getD defaultDoc
  { id := doc_id
    titulo := (doc.titulo).getD []
    score := calculate_score doc query_tokens
    snippet := extract_snippet ((doc.texto).getD []) query_tokens 200
    data_publicacao := doc.data_publicacao
    link := doc.link }

/-- Stable insertion into a descending-by-score list: an element passes all
elements with score `≥` its own, so equal scores keep their prior order —
the behavior of Python's stable `list.sort(key=score, reverse=True)`. -/
def insertDesc (x : SearchResult) : List SearchResult → List SearchResult
  | [] => [x]
  | y :: ys => if x.score ≤ y.score then y :: insertDesc x ys else x :: y :: ys

/-- `results.sort(key=lambda x: x.score, reverse=True)`: any stable sort
computes the same list; the model uses stable insertion sort. -/
def stableSortDesc (l : List SearchResult) : List SearchResult :=
  l.foldl (fun acc x => insertDesc x acc) []

/-- The ids retained for scoring: `doc_ids[:max_results]` in the order
`InvertedIndex.search` returned them. -/
def retainedIds (idx : Index) (query : Str) (max_results : Nat) : List Nat :=
  (parse_boolean_querySt idx query).1.take max_results

/-- The scored, snippet-annotated records before sorting. -/
def retainedResults (idx : Index) (query : Str) (max_results : Nat) :
    List SearchResult :=
  (retainedIds idx query max_results).map
    (mkResult (parse_boolean_querySt idx query).2 (tokenize query))

/-- `CNSSearchEngine.search`. -/
def engineSearchSt (idx : Index) (query : Str) (max_results : Nat) :
    List SearchResult × Index :=
  if (trim query).isEmpty then ([], idx)
  else
    let r := parse_boolean_querySt idx query
    if r.1.isEmpty then ([], r.2)
    else
      let query_tokens := tokenize query
      let results := (r.1.take max_results).map (mkResult r.2 query_tokens)
      ((stableSortDesc results).take max_results, r.2)

/-- `tokenize` of an optional field (`none`: absent key or null value). -/
def tokenizeOpt : Option Str → List Str
  | none => []
  | some s => tokenize s

/-- The keys under which `add_document idx i doc` inserts `i`. -/
def insertsKey (doc : Doc) (i : Nat) (t : Str) (d : Nat) : Prop :=
  d = i ∧ ((∃ tok ∈ tokenizeOpt doc.titulo, t = tok ∨ t = titleTag ++ tok) ∨
    t ∈ tokenizeOpt doc.texto)
/-- Index entries with a duplicated id, for the C2 counterexample. -/
def dupDocA : Doc := ⟨some (("xyz").toList), none, [], []⟩

def dupDocB : Doc := ⟨some (("qqq").toList), none, [], []⟩
/-- Sample corpus shared by several witnesses. -/
def sampleDoc0 : Doc := ⟨some (("xyz not aaa").toList), none, [], []⟩

def sampleDoc1 : Doc := ⟨some (("xyz").toList), some (("bbb bbb aaa").toList), [], []⟩

def sampleEntries : List (Nat × Doc) := [(0, sampleDoc0), (1, sampleDoc1)]

def sampleIndex : Index := buildIndex sampleEntries
/-- D1 of the spec: title containing "medicina", no body occurrences. -/
def exampleD1 : Doc := ⟨some (("medicina geral").toList), none, [], []⟩

/-- D2 of the spec: empty title, five body occurrences of "medicina". -/
def exampleD2 : Doc :=
  ⟨some [], some (("medicina medicina medicina medicina medicina").toList), [], []⟩

/-- Unfolding lemma for `lookupTermsSt` on a cons. -/
theorem lookupTermsSt_cons (idx : Index) (subs : Subs) (t : Str) (ts : List Str) :
    lookupTermsSt idx subs (t :: ts) =
      ((termResultSt idx subs t).1 ::
        (lookupTermsSt (termResultSt idx subs t).2 subs ts).1,
       (lookupTermsSt (termResultSt idx subs t).2 subs ts).2) := rfl

theorem lookupTermsSt_nil (idx : Index) (subs : Subs) :
    lookupTermsSt idx subs [] = ([], idx) := rfl

/-! ## Normalization: structure of the output and idempotence -/

theorem foldChar_eq_self {c : Char} (h : isLowerAlnum c = true ∨ c = ' ') :
    foldChar c = c := by
  have hnone : foldTable.find? (fun e => e.1 = c) = none := by
    rw [List.find?_eq_none]
    intro e he
    have hkeys : ∀ e2 ∈ foldTable, isLowerAlnum e2.1 = false ∧ e2.1 ≠ ' ' := by decide
    have hk := hkeys e he
    simp only [decide_eq_true_eq]
    intro hec
    rcases h with h | h
    · rw [hec] at hk
      exact absurd h (by simp [hk.1])
    · exact hk.2 (hec.trans h)
  simp [foldChar, hnone]

theorem keepOrSpace_eq_self {c : Char} (h : isLowerAlnum c = true ∨ isWS c = true) :
    keepOrSpace c = c := by
  rcases h with h | h <;> simp [keepOrSpace, h]

/-- Words produced by `splitWordsAux` are nonempty, whitespace-free, and
made of input (or accumulator) characters. -/
theorem splitWordsAux_words (s : Str) :
    ∀ (acc : Str), (∀ c ∈ acc, isWS c = false) →
      ∀ w ∈ splitWordsAux s acc,
        w ≠ [] ∧ ∀ c ∈ w, isWS c = false ∧ (c ∈ s ∨ c ∈ acc) := by
  induction s with
  | nil =>
    intro acc hacc w hw
    unfold splitWordsAux at hw
    by_cases h : acc.isEmpty = true
    · simp [h] at hw
    · simp only [h, Bool.false_eq_true, if_false, List.mem_singleton] at hw
      subst hw
      refine ⟨by simpa [List.isEmpty_iff] using h, ?_⟩
      intro c hc
      rw [List.mem_reverse] at hc
      exact ⟨hacc c hc, Or.inr hc⟩
  | cons a s ih =>
    intro acc hacc w hw
    unfold splitWordsAux at hw
    by_cases ha : isWS a = true
    · by_cases h : acc.isEmpty = true
      · simp only [ha, h, if_true] at hw
        obtain ⟨hne, hall⟩ := ih [] (by simp) w hw
        exact ⟨hne, fun c hc => ⟨(hall c hc).1,
          Or.inl (List.mem_cons_of_mem a ((hall c hc).2.resolve_right (by simp)))⟩⟩
      · simp only [ha, h, Bool.false_eq_true, if_false, if_true, List.mem_cons] at hw
        rcases hw with hw | hw
        · subst hw
          refine ⟨by simpa [List.isEmpty_iff] using h, ?_⟩
          intro c hc
          rw [List.mem_reverse] at hc
          exact ⟨hacc c hc, Or.inr hc⟩
        · obtain ⟨hne, hall⟩ := ih [] (by simp) w hw
          exact ⟨hne, fun c hc => ⟨(hall c hc).1,
            Or.inl (List.mem_cons_of_mem a ((hall c hc).2.resolve_right (by simp)))⟩⟩
    · simp only [ha, Bool.false_eq_true, if_false] at hw
      obtain ⟨hne, hall⟩ := ih (a :: acc)
        (by
          intro c hc
          rcases List.mem_cons.mp hc with hc | hc
          · subst hc; simpa using ha
          · exact hacc c hc) w hw
      refine ⟨hne, fun c hc => ⟨(hall c hc).1, ?_⟩⟩
      rcases (hall c hc).2 with h2 | h2
      · exact Or.inl (List.mem_cons_of_mem a h2)
      · rcases List.mem_cons.mp h2 with h3 | h3
        · exact Or.inl (h3 ▸ List.mem_cons_self a s)
        · exact Or.inr h3

theorem splitWords_words (s : Str) :
    ∀ w ∈ splitWords s, w ≠ [] ∧ ∀ c ∈ w, isWS c = false ∧ c ∈ s := by
  intro w hw
  obtain ⟨hne, hall⟩ := splitWordsAux_words s [] (by simp) w hw
  exact ⟨hne, fun c hc => ⟨(hall c hc).1, (hall c hc).2.resolve_right (by simp)⟩⟩

theorem splitWordsAux_cons_nonWS {a : Char} (s acc : Str) (h : isWS a = false) :
    splitWordsAux (a :: s) acc = splitWordsAux s (a :: acc) := by
  conv_lhs => unfold splitWordsAux
  simp [h]

/-- Consuming a whitespace-free word advances the accumulator. -/
theorem splitWordsAux_word_append (w : Str) (hw : ∀ c ∈ w, isWS c = false) :
    ∀ (rest acc : Str), splitWordsAux (w ++ rest) acc = splitWordsAux rest (w.reverse ++ acc) := by
  induction w with
  | nil => intro rest acc; simp
  | cons a w ih =>
    intro rest acc
    have ha : isWS a = false := hw a (List.mem_cons_self a w)
    rw [List.cons_append, splitWordsAux_cons_nonWS _ _ ha,
      ih (fun c hc => hw c (List.mem_cons_of_mem a hc)) rest (a :: acc)]
    simp

/-- `str.split()` is a left inverse of `' '.join` on lists of nonempty,
whitespace-free words. -/
theorem splitWords_joinSpace :
    ∀ (ws : List Str), (∀ w ∈ ws, w ≠ [] ∧ ∀ c ∈ w, isWS c = false) →
      splitWords (joinSpace ws) = ws := by
  intro ws
  induction ws with
  | nil => intro _; rfl
  | cons w ws ih =>
    intro h
    obtain ⟨hne, hnws⟩ := h w (List.mem_cons_self w ws)
    cases ws with
    | nil =>
      show splitWordsAux (joinSpace [w]) [] = [w]
      have : joinSpace [w] = w ++ [] := by simp [joinSpace]
      rw [this, splitWordsAux_word_append w hnws [] []]
      unfold splitWordsAux
      simp [List.isEmpty_iff, hne]
    | cons w2 ws2 =>
      show splitWordsAux (joinSpace (w :: w2 :: ws2)) [] = w :: w2 :: ws2
      have hj : joinSpace (w :: w2 :: ws2) = w ++ ' ' :: joinSpace (w2 :: ws2) := rfl
      rw [hj, splitWordsAux_word_append w hnws _ []]
      unfold splitWordsAux
      simp only [show isWS ' ' = true from rfl, if_true, List.append_nil]
      have hracc : (w.reverse).isEmpty = false := by
        simp [List.isEmpty_iff, hne]
      simp only [hracc, Bool.false_eq_true, if_false, List.reverse_reverse]
      rw [show splitWordsAux (joinSpace (w2 :: ws2)) [] = splitWords (joinSpace (w2 :: ws2)) from rfl,
        ih (fun x hx => h x (List.mem_cons_of_mem w hx))]

theorem mem_joinSpace {c : Char} :
    ∀ (ws : List Str), c ∈ joinSpace ws → c = ' ' ∨ ∃ w ∈ ws, c ∈ w := by
  intro ws
  induction ws with
  | nil => intro h; simp [joinSpace] at h
  | cons w ws ih =>
    intro h
    cases ws with
    | nil =>
      simp only [joinSpace] at h
      exact Or.inr ⟨w, List.mem_singleton_self w, h⟩
    | cons w2 ws2 =>
      have hj : joinSpace (w :: w2 :: ws2) = w ++ ' ' :: joinSpace (w2 :: ws2) := rfl
      rw [hj, List.mem_append] at h
      rcases h with h | h
      · exact Or.inr ⟨w, List.mem_cons_self w _, h⟩
      · rcases List.mem_cons.mp h with h | h
        · exact Or.inl h
        · rcases ih h with h | ⟨w3, hw3, hc⟩
          · exact Or.inl h
          · exact Or.inr ⟨w3, List.mem_cons_of_mem w hw3, hc⟩

/-- Every character of a normalized string is a lower-case alphanumeric or
the single space used as separator. -/
theorem normalize_text_chars (s : Str) :
    ∀ c ∈ normalize_text s, isLowerAlnum c = true ∨ c = ' ' := by
  intro c hc
  unfold normalize_text at hc
  rcases mem_joinSpace _ hc with h | ⟨w, hw, hcw⟩
  · exact Or.inr h
  · obtain ⟨_, hall⟩ := splitWords_words _ w hw
    obtain ⟨hnws, hmem⟩ := hall c hcw
    rw [List.mem_map] at hmem
    obtain ⟨c0, _, hc0⟩ := hmem
    by_cases h : (isLowerAlnum c0 || isWS c0) = true
    · have : c = c0 := by rw [← hc0]; simp [keepOrSpace, h]
      rcases Bool.or_eq_true_iff.mp h with h2 | h2
      · exact Or.inl (this ▸ h2)
      · exact absurd (this ▸ h2) (by simp [hnws])
    · have : c = ' ' := by rw [← hc0]; simp [keepOrSpace, h]
      exact Or.inr this

/-- The words of a normalized string are nonempty and whitespace-free. -/
theorem normalize_text_words (s : Str) :
    ∀ w ∈ splitWords ((s.map foldChar).map keepOrSpace),
      w ≠ [] ∧ ∀ c ∈ w, isWS c = false :=
  fun w hw =>
    ⟨(splitWords_words _ w hw).1, fun c hc => ((splitWords_words _ w hw).2 c hc).1⟩

/-- C7: Text normalization is idempotent: for every string `s`,
`normalize(normalize(s)) = normalize(s)`, where `normalize` lower-cases,
strips diacritics, replaces characters outside `[a-z0-9]` and whitespace
with a space, collapses whitespace runs, and trims. -/
theorem c7_normalize_idempotent (s : Str) :
    normalize_text (normalize_text s) = normalize_text s := by
  have hchars := normalize_text_chars s
  have h1 : (normalize_text s).map foldChar = (normalize_text s).map id :=
    List.map_congr_left (fun c hc => foldChar_eq_self (hchars c hc))
  rw [List.map_id] at h1
  have h2 : (normalize_text s).map keepOrSpace = (normalize_text s).map id :=
    List.map_congr_left (fun c hc => keepOrSpace_eq_self (by
      rcases hchars c hc with h | h
      · exact Or.inl h
      · exact Or.inr (by rw [h]; rfl)))
  rw [List.map_id] at h2
  show joinSpace (splitWords (((normalize_text s).map foldChar).map keepOrSpace)) =
    normalize_text s
  rw [h1, h2]
  unfold normalize_text
  rw [splitWords_joinSpace _ (normalize_text_words s)]

/-! ## Query evaluation never mutates the index state

`_search_term` guards the `defaultdict` access with a membership test, so
the read never inserts; every other access in the search path is a plain
read.  The lemmas below push that fact through the whole pipeline. -/

theorem search_termSt_snd (idx : Index) (term : Str) :
    (search_termSt idx term).2 = idx := by
  unfold search_termSt ddRead
  cases h : alistFind idx.index (normalize_text term) with
  | none => simp [h]
  | some v => simp [h]

theorem search_termSt_fst (idx : Index) (term : Str) :
    (search_termSt idx term).1 = postings idx.index (normalize_text term) := by
  unfold search_termSt ddRead postings
  cases h : alistFind idx.index (normalize_text term) with
  | none => simp [h]
  | some v => simp [h]

theorem search_phraseSt_snd (idx : Index) (phrase : Str) :
    (search_phraseSt idx phrase).2 = idx := by
  unfold search_phraseSt
  cases h : tokenize phrase with
  | nil => rfl
  | cons t0 ts => simpa using search_termSt_snd idx t0

theorem termResultSt_snd (idx : Index) (subs : Subs) (term : Str) :
    (termResultSt idx subs term).2 = idx := by
  unfold termResultSt
  by_cases h : isPlaceholder term = true
  · simp [h]
  · simpa [h] using search_termSt_snd idx term

theorem lookupTermsSt_snd (idx : Index) (subs : Subs) (ts : List Str) :
    (lookupTermsSt idx subs ts).2 = idx := by
  induction ts generalizing idx with
  | nil => rfl
  | cons t ts ih =>
    unfold lookupTermsSt
    show (lookupTermsSt (termResultSt idx subs t).2 subs ts).2 = idx
    rw [ih, termResultSt_snd]

theorem parse_and_notSt_snd (idx : Index) (subs : Subs) (query_part : Str) :
    (parse_and_notSt idx subs query_part).2 = idx := by
  unfold parse_and_notSt
  by_cases h : (classify (splitWords query_part)).1.isEmpty = true
  · simp [h]
  · simp only [h]
    simp only [Bool.false_eq_true, if_false]
    rw [lookupTermsSt_snd, lookupTermsSt_snd]

theorem evalOrPartsSt_snd (idx : Index) (subs : Subs) (acc : List Nat)
    (ps : List Str) : (evalOrPartsSt idx subs acc ps).2 = idx := by
  induction ps generalizing idx acc with
  | nil => rfl
  | cons p ps ih =>
    unfold evalOrPartsSt
    by_cases h : (trim p).isEmpty = true
    · simpa [h] using ih idx acc
    · simp only [h, Bool.false_eq_true, if_false]
      rw [show (parse_and_notSt idx subs (trim p)).2 = idx from
        parse_and_notSt_snd idx subs (trim p)] at *
      exact (parse_and_notSt_snd idx subs (trim p)) ▸ ih _ _

theorem evaluate_simple_querySt_snd (idx : Index) (subs : Subs) (query : Str) :
    (evaluate_simple_querySt idx subs query).2 = idx :=
  evalOrPartsSt_snd idx subs [] (orSplit query)

theorem storePhrasesSt_snd (idx : Index) (subs : Subs) (ps : List (Nat × Str)) :
    (storePhrasesSt idx subs ps).2 = idx := by
  induction ps generalizing idx subs with
  | nil => rfl
  | cons p ps ih =>
    obtain ⟨i, ph⟩ := p
    unfold storePhrasesSt
    simpa [search_phraseSt_snd] using
      (search_phraseSt_snd idx ph ▸ ih (search_phraseSt idx ph).2 _)

theorem parenLoopSt_snd (fuel : Nat) (idx : Index) (q : Str) (subs : Subs)
    (pid : Nat) : (parenLoopSt idx fuel q subs pid).2 = idx := by
  induction fuel generalizing idx q subs pid with
  | zero => rfl
  | succ fuel ih =>
    unfold parenLoopSt
    by_cases h : '(' ∈ q
    · simp only [h, if_true]
      cases hg : findGroup q with
      | none => rfl
      | some content =>
        simpa [evaluate_simple_querySt_snd] using
          (evaluate_simple_querySt_snd idx subs content ▸ ih _ _ _ _)
    · simp [h]

theorem parse_boolean_querySt_snd (idx : Index) (query : Str) :
    (parse_boolean_querySt idx query).2 = idx := by
  unfold parse_boolean_querySt
  have hsp := storePhrasesSt_snd idx [] (findPhrases (trim query)).enum
  cases hl : parenLoopSt (storePhrasesSt idx [] (findPhrases (trim query)).enum).2
      ((stripPhrases (trim query) (findPhrases (trim query)).enum).count '(')
      (stripPhrases (trim query) (findPhrases (trim query)).enum)
      (storePhrasesSt idx [] (findPhrases (trim query)).enum).1 0 with
  | mk o idx2 =>
    have h2 : idx2 = idx := by
      have := parenLoopSt_snd
        ((stripPhrases (trim query) (findPhrases (trim query)).enum).count '(')
        (storePhrasesSt idx [] (findPhrases (trim query)).enum).2
        (stripPhrases (trim query) (findPhrases (trim query)).enum)
        (storePhrasesSt idx [] (findPhrases (trim query)).enum).1 0
      rw [hl] at this
      simpa [hsp] using this
    cases o with
    | none => simp [hl, h2]
    | some qs => simp [hl, h2, evaluate_simple_querySt_snd]

theorem engineSearchSt_snd (idx : Index) (query : Str) (max_results : Nat) :
    (engineSearchSt idx query max_results).2 = idx := by
  unfold engineSearchSt
  by_cases h : (trim query).isEmpty = true
  · simp [h]
  · by_cases h2 : (parse_boolean_querySt idx query).1.isEmpty = true
    · simp [h, h2, parse_boolean_querySt_snd]
    · simp [h, h2, parse_boolean_querySt_snd]

/-- C9: query evaluation is read-only: `_search_term` (guarding the
`defaultdict` access with a membership test), `InvertedIndex.search`
(`_parse_boolean_query`), and the full `CNSSearchEngine.search` pipeline
leave the term-to-posting-set map and the document store (the whole
`Index` state) unchanged — in particular looking up an unknown term never
inserts a new entry. -/
theorem c9_search_readonly (idx : Index) (term query : Str) (max_results : Nat) :
    (search_termSt idx term).2 = idx ∧
    (parse_boolean_querySt idx query).2 = idx ∧
    (engineSearchSt idx query max_results).2 = idx :=
  ⟨search_termSt_snd idx term, parse_boolean_querySt_snd idx query,
   engineSearchSt_snd idx query max_results⟩

/-! ## Index construction: posting-set membership (`add_document`) -/

theorem mem_listInsert {l : List Nat} {x d : Nat} :
    d ∈ listInsert l x ↔ d ∈ l ∨ d = x := by
  unfold listInsert
  by_cases h : x ∈ l
  · simp only [h, if_true]
    exact ⟨Or.inl, fun h2 => h2.elim id (fun e => e ▸ h)⟩
  · simp [h]

theorem alistFind_cons {κ β : Type} [DecidableEq κ] (k' : κ) (v : β)
    (rest : List (κ × β)) (k : κ) :
    alistFind ((k', v) :: rest) k = if k' = k then some v else alistFind rest k := rfl

theorem postings_cons (k' : Str) (v : List Nat) (rest : List (Str × List Nat))
    (t : Str) :
    postings ((k', v) :: rest) t = if k' = t then v else postings rest t := by
  unfold postings
  rw [alistFind_cons]
  by_cases h : k' = t
  · rw [if_pos h, if_pos h]
    rfl
  · rw [if_neg h, if_neg h]

theorem ddAdd_cons (k' : Str) (v : List Nat) (rest : List (Str × List Nat))
    (k : Str) (d : Nat) :
    ddAdd ((k', v) :: rest) k d =
      if k' = k then (k', listInsert v d) :: rest
      else (k', v) :: ddAdd rest k d := rfl

theorem postings_ddAdd_eq (m : List (Str × List Nat)) (k : Str) (d : Nat)
    (t : Str) :
    postings (ddAdd m k d) t =
      if t = k then listInsert (postings m k) d else postings m t := by
  induction m with
  | nil =>
    show postings [(k, [d])] t = if t = k then listInsert (postings [] k) d else postings [] t
    rw [postings_cons]
    by_cases h : t = k
    · rw [if_pos h.symm, if_pos h]
      rfl
    · rw [if_neg (fun hh => h hh.symm), if_neg h]
  | cons e rest ih =>
    obtain ⟨k', v⟩ := e
    rw [ddAdd_cons]
    by_cases hk : k' = k
    · rw [if_pos hk]
      by_cases ht : t = k'
      · have h1 : k' = t := ht.symm
        have h2 : t = k := ht.trans hk
        simp [postings_cons, h1, h2, hk]
      · have h1 : ¬ k' = t := fun hh => ht hh.symm
        have h2 : ¬ t = k := fun hh => ht (hh.trans hk.symm)
        simp [postings_cons, h1, h2]
    · rw [if_neg hk]
      by_cases ht : k' = t
      · have h2 : ¬ t = k := fun hh => hk (ht.trans hh)
        simp [postings_cons, ht, h2]
      · simp [postings_cons, ht, hk, ih]

theorem mem_postings_ddAdd {m : List (Str × List Nat)} {k : Str} {d : Nat}
    {t : Str} {d' : Nat} :
    d' ∈ postings (ddAdd m k d) t ↔ (t = k ∧ d' = d) ∨ d' ∈ postings m t := by
  rw [postings_ddAdd_eq]
  by_cases h : t = k
  · subst h
    rw [if_pos rfl, mem_listInsert]
    tauto
  · simp [h]

/-- Membership after the title-token loop of `add_document` (each token is
inserted under the plain key and the `"title:"`-tagged key). -/
theorem mem_postings_title_fold (toks : List Str) (m : List (Str × List Nat))
    (i : Nat) (t : Str) (d' : Nat) :
    d' ∈ postings (toks.foldl
        (fun m token => ddAdd (ddAdd m token i) (titleTag ++ token) i) m) t ↔
      (d' = i ∧ ∃ tok ∈ toks, t = tok ∨ t = titleTag ++ tok) ∨
        d' ∈ postings m t := by
  induction toks generalizing m with
  | nil => simp
  | cons tok toks ih =>
    rw [List.foldl_cons, ih, mem_postings_ddAdd, mem_postings_ddAdd,
      List.exists_mem_cons_iff]
    generalize (∃ x ∈ toks, t = x ∨ t = titleTag ++ x) = E
    tauto

/-- Membership after the body-token loop of `add_document`. -/
theorem mem_postings_body_fold (toks : List Str) (m : List (Str × List Nat))
    (i : Nat) (t : Str) (d' : Nat) :
    d' ∈ postings (toks.foldl (fun m token => ddAdd m token i) m) t ↔
      (d' = i ∧ t ∈ toks) ∨ d' ∈ postings m t := by
  induction toks generalizing m with
  | nil => simp
  | cons tok toks ih =>
    rw [List.foldl_cons, ih, mem_postings_ddAdd]
    simp only [List.mem_cons]
    tauto

theorem mem_postings_add_document (idx : Index) (i : Nat) (doc : Doc)
    (t : Str) (d' : Nat) :
    d' ∈ postings (add_document idx i doc).index t ↔
      insertsKey doc i t d' ∨ d' ∈ postings idx.index t := by
  unfold add_document insertsKey
  cases htit : doc.titulo with
  | none =>
    cases htex : doc.texto with
    | none => simp [tokenizeOpt]
    | some tx =>
      simp only [tokenizeOpt]
      rw [mem_postings_body_fold]
      simp only [List.not_mem_nil, false_and, exists_false, false_or]
  | some ti =>
    cases htex : doc.texto with
    | none =>
      simp only [tokenizeOpt]
      rw [mem_postings_title_fold]
      simp only [List.not_mem_nil, or_false]
    | some tx =>
      simp only [tokenizeOpt]
      rw [mem_postings_body_fold, mem_postings_title_fold]
      generalize (∃ tok ∈ tokenize ti, t = tok ∨ t = titleTag ++ tok) = E
      tauto

theorem mem_postings_buildFold (es : List (Nat × Doc)) (idx0 : Index)
    (t : Str) (d : Nat) :
    d ∈ postings ((es.foldl (fun idx e => add_document idx e.1 e.2) idx0).index) t ↔
      (∃ e ∈ es, insertsKey e.2 e.1 t d) ∨ d ∈ postings idx0.index t := by
  induction es generalizing idx0 with
  | nil => simp
  | cons e es ih =>
    rw [List.foldl_cons, ih, mem_postings_add_document, List.exists_mem_cons_iff]
    generalize (∃ x ∈ es, insertsKey x.2 x.1 t d) = E
    generalize insertsKey e.2 e.1 t d = A
    tauto

theorem mem_postings_buildIndex (es : List (Nat × Doc)) (t : Str) (d : Nat) :
    d ∈ postings (buildIndex es).index t ↔ ∃ e ∈ es, insertsKey e.2 e.1 t d := by
  unfold buildIndex
  rw [mem_postings_buildFold]
  have : postings emptyIndex.index t = [] := rfl
  simp [this]

theorem documents_buildFold (es : List (Nat × Doc)) (idx0 : Index) :
    (es.foldl (fun idx e => add_document idx e.1 e.2) idx0).documents =
      es.foldl (fun dl e => alistSet dl e.1 e.2) idx0.documents := by
  induction es generalizing idx0 with
  | nil => rfl
  | cons e es ih =>
    rw [List.foldl_cons, List.foldl_cons, ih]
    rfl

theorem alistFind_alistSet {κ β : Type} [DecidableEq κ] (l : List (κ × β))
    (k : κ) (v : β) (k2 : κ) :
    alistFind (alistSet l k v) k2 = if k = k2 then some v else alistFind l k2 := by
  induction l with
  | nil => rfl
  | cons e rest ih =>
    obtain ⟨k', v'⟩ := e
    rw [show alistSet ((k', v') :: rest) k v =
      if k' = k then (k', v) :: rest else (k', v') :: alistSet rest k v from rfl]
    by_cases hk : k' = k
    · rw [if_pos hk, alistFind_cons, alistFind_cons]
      by_cases h2 : k' = k2
      · rw [if_pos h2, if_pos (hk ▸ h2)]
      · rw [if_neg h2, if_neg (fun hh : k = k2 => h2 (hk.trans hh)), if_neg h2]
    · rw [if_neg hk, alistFind_cons]
      by_cases h2 : k' = k2
      · rw [if_pos h2, if_neg (fun hh : k = k2 => hk (hh.trans h2.symm).symm)]
        rw [alistFind_cons, if_pos h2]
      · rw [if_neg h2, ih, alistFind_cons, if_neg h2]

theorem alistFind_setFold_not_mem {es l0 : List (Nat × Doc)} {d : Nat}
    (h : d ∉ es.map Prod.fst) :
    alistFind (es.foldl (fun dl e => alistSet dl e.1 e.2) l0) d = alistFind l0 d := by
  induction es generalizing l0 with
  | nil => rfl
  | cons e es ih =>
    rw [List.map_cons] at h
    rw [List.foldl_cons, ih (fun hm => h (List.mem_cons_of_mem _ hm)),
      alistFind_alistSet, if_neg (fun hh : e.1 = d => h (by simp [← hh]))]

theorem alistFind_setFold_mem {es l0 : List (Nat × Doc)} {d : Nat} {doc : Doc}
    (hnd : (es.map Prod.fst).Nodup) (h : (d, doc) ∈ es) :
    alistFind (es.foldl (fun dl e => alistSet dl e.1 e.2) l0) d = some doc := by
  induction es generalizing l0 with
  | nil => cases h
  | cons e es ih =>
    rw [List.map_cons, List.nodup_cons] at hnd
    rw [List.foldl_cons]
    rcases List.mem_cons.mp h with h | h
    · have he1 : e.1 = d := by rw [← h]
      have hd : d ∉ es.map Prod.fst := he1 ▸ hnd.1
      rw [alistFind_setFold_not_mem hd, alistFind_alistSet, if_pos he1]
      rw [← h]
    · exact ih hnd.2 h

theorem alistFind_setFold_some {es l0 : List (Nat × Doc)} {d : Nat} {doc : Doc}
    (h : alistFind (es.foldl (fun dl e => alistSet dl e.1 e.2) l0) d = some doc) :
    (d, doc) ∈ es ∨ (d ∉ es.map Prod.fst ∧ alistFind l0 d = some doc) := by
  induction es generalizing l0 with
  | nil => exact Or.inr ⟨by simp, h⟩
  | cons e es ih =>
    rw [List.foldl_cons] at h
    rcases ih h with h2 | ⟨hnm, hf⟩
    · exact Or.inl (List.mem_cons_of_mem _ h2)
    · rw [alistFind_alistSet] at hf
      by_cases he : e.1 = d
      · rw [if_pos he] at hf
        have : e.2 = doc := by injection hf
        have he2 : e = (d, doc) := by
          rw [← he, ← this]
        exact Or.inl (he2 ▸ List.mem_cons_self _ _)
      · rw [if_neg he] at hf
        refine Or.inr ⟨?_, hf⟩
        rw [List.map_cons]
        intro hm
        rcases List.mem_cons.mp hm with hm | hm
        · exact he hm.symm
        · exact hnm hm

/-! ## Claim C2: the posting-set membership invariant -/

/-- C2 (amended): after a sequence of `add_document` calls with pairwise
distinct document ids, for every non-`"title:"`-prefixed term `t` and
document id `d`: `d` is in the posting set `index[t]` iff tokenizing the
stored document `d`'s title or its body (when present and non-null) yields
`t`; and every title token of `d` is also inserted under the
`"title:"`-prefixed key. -/
theorem c2_amended_postings_invariant (es : List (Nat × Doc)) (t : Str) (d : Nat)
    (hnd : (es.map Prod.fst).Nodup) (ht : ¬ titleTag <+: t) :
    (d ∈ postings (buildIndex es).index t ↔
      ∃ doc, alistFind (buildIndex es).documents d = some doc ∧
        (t ∈ tokenizeOpt doc.titulo ∨ t ∈ tokenizeOpt doc.texto)) ∧
    (∀ doc tok, alistFind (buildIndex es).documents d = some doc →
      tok ∈ tokenizeOpt doc.titulo →
      d ∈ postings (buildIndex es).index (titleTag ++ tok)) := by
  have hdocs : (buildIndex es).documents =
      es.foldl (fun dl e => alistSet dl e.1 e.2) [] := by
    unfold buildIndex
    rw [documents_buildFold]
    rfl
  constructor
  · rw [mem_postings_buildIndex]
    constructor
    · rintro ⟨e, he, hd, hdisj⟩
      have hmem : (d, e.2) ∈ es := by
        have h2 : (d, e.2) = e := by rw [hd]
        exact h2 ▸ he
      refine ⟨e.2, ?_, ?_⟩
      · rw [hdocs]
        exact alistFind_setFold_mem hnd hmem
      · rcases hdisj with ⟨tok, htok, hor⟩ | hbody
        · rcases hor with rfl | rfl
          · exact Or.inl htok
          · exact absurd ⟨tok, rfl⟩ ht
        · exact Or.inr hbody
    · rintro ⟨doc, hfind, hdisj⟩
      rw [hdocs] at hfind
      rcases alistFind_setFold_some hfind with hmem | ⟨-, hnone⟩
      · refine ⟨(d, doc), hmem, rfl, ?_⟩
        rcases hdisj with h | h
        · exact Or.inl ⟨t, h, Or.inl rfl⟩
        · exact Or.inr h
      · cases hnone
  · intro doc tok hfind htok
    rw [hdocs] at hfind
    rcases alistFind_setFold_some hfind with hmem | ⟨-, hnone⟩
    · rw [mem_postings_buildIndex]
      exact ⟨(d, doc), hmem, rfl, Or.inl ⟨tok, htok, Or.inr rfl⟩⟩
    · cases hnone

/-- C2 (counterexample): after `add_document(0, A)` then `add_document(0, B)`
(a sequence of `add_document` calls), id `0` remains in the posting set of
the non-prefixed term `"xyz"` although tokenizing the stored document `0`
(which is `B`) yields no `"xyz"` in title or body: the claimed iff fails. -/
theorem c2_counterexample :
    0 ∈ postings (buildIndex [(0, dupDocA), (0, dupDocB)]).index (("xyz").toList) ∧
    ¬ titleTag <+: ("xyz").toList ∧
    alistFind (buildIndex [(0, dupDocA), (0, dupDocB)]).documents 0 = some dupDocB ∧
    ("xyz").toList ∉ tokenizeOpt dupDocB.titulo ∧
    ("xyz").toList ∉ tokenizeOpt dupDocB.texto := by
  decide

/-- C2 (witness): the amended invariant evaluated on a concrete two-document
index at term `"bbb"` and id `1`. -/
theorem c2_amended_witness :
    (sampleEntries.map Prod.fst).Nodup ∧ ¬ titleTag <+: ("bbb").toList ∧
    ((1 ∈ postings (buildIndex sampleEntries).index (("bbb").toList) ↔
      ∃ doc, alistFind (buildIndex sampleEntries).documents 1 = some doc ∧
        (("bbb").toList ∈ tokenizeOpt doc.titulo ∨
          ("bbb").toList ∈ tokenizeOpt doc.texto)) ∧
     (∀ doc tok, alistFind (buildIndex sampleEntries).documents 1 = some doc →
      tok ∈ tokenizeOpt doc.titulo →
      1 ∈ postings (buildIndex sampleEntries).index (titleTag ++ tok))) :=
  ⟨by decide, by decide,
   c2_amended_postings_invariant sampleEntries (("bbb").toList) 1 (by decide) (by decide)⟩


/-! ## Claim C3: phrase search has no false positives -/

/-- C3: every document id returned by `_search_phrase` is one whose stored
document's normalized title+body text contains the space-joined normalized
phrase tokens as an exact contiguous substring (in particular, documents
with the same tokens in a different order are not returned). -/
theorem c3_phrase_no_false_positives (idx : Index) (phrase : Str) (d : Nat)
    (h : d ∈ (search_phraseSt idx phrase).1) :
    ∃ doc, alistFind idx.documents d = some doc ∧
      occursIn (joinSpace (tokenize phrase)) (normalize_text (docContent doc)) = true := by
  unfold search_phraseSt at h
  cases htok : tokenize phrase with
  | nil => rw [htok] at h; cases h
  | cons t0 ts =>
    rw [htok] at h
    dsimp only at h
    rw [search_termSt_snd] at h
    rw [List.mem_filter] at h
    cases hf : alistFind idx.documents d with
    | none => rw [hf] at h; cases h.2
    | some doc =>
      rw [hf] at h
      exact ⟨doc, rfl, h.2⟩

/-- C3 (witness): on the sample index, the phrase `"xyz not"` returns
document 0, whose normalized content contains `"xyz not"`. -/
theorem c3_phrase_witness :
    0 ∈ (search_phraseSt sampleIndex (("xyz not").toList)).1 ∧
    ∃ doc, alistFind sampleIndex.documents 0 = some doc ∧
      occursIn (joinSpace (tokenize (("xyz not").toList)))
        (normalize_text (docContent doc)) = true :=
  ⟨by decide,
   c3_phrase_no_false_positives sampleIndex (("xyz not").toList) 0 (by decide)⟩

/-! ## Claim C10: a trailing literal `NOT` is an ordinary positive term -/

theorem termResultSt_of_not_placeholder {term : Str} (h : isPlaceholder term = false)
    (idx : Index) (subs : Subs) :
    termResultSt idx subs term = (toSet (search_termSt idx term).1, idx) := by
  unfold termResultSt
  rw [h]
  simp [search_termSt_snd]

/-- C10: in a flat clause, a trailing `NOT` not followed by any word is not
an operator and is not ignored: it becomes an ordinary positive term, so a
clause `X NOT` evaluates to the intersection of the posting set of `X` with
the posting set of the normalized word `"not"`. -/
theorem c10_trailing_not_positive (idx : Index) (subs : Subs) (w : Str)
    (hne : w ≠ []) (hws : ∀ c ∈ w, isWS c = false)
    (hnot : w ≠ notWord) (hand : w ≠ andWord) (hph : isPlaceholder w = false) :
    (parse_and_notSt idx subs (w ++ (' ' :: notWord))).1 =
      listInter (toSet (postings idx.index (normalize_text w)))
        (toSet (postings idx.index (("not").toList))) := by
  have hsplit : splitWords (w ++ (' ' :: notWord)) = [w, notWord] := by
    unfold splitWords
    rw [splitWordsAux_word_append w hws (' ' :: notWord) []]
    conv_lhs => unfold splitWordsAux
    rw [if_pos (show isWS ' ' = true from rfl)]
    rw [if_neg (by simp [List.isEmpty_iff, hne])]
    rw [List.append_nil, List.reverse_reverse]
    rw [show splitWordsAux notWord [] = [notWord] from by decide]
  have hcls : classify [w, notWord] = ([w, notWord], []) := by
    unfold classify
    rw [if_neg hnot, if_neg hand]
    rw [show classify [notWord] = ([notWord], []) from by decide]
  have hA := termResultSt_of_not_placeholder hph idx subs
  have hB := termResultSt_of_not_placeholder
    (show isPlaceholder notWord = false from by decide) idx subs
  have hlook : lookupTermsSt idx subs [w, notWord] =
      ([toSet (search_termSt idx w).1, toSet (search_termSt idx notWord).1], idx) := by
    rw [lookupTermsSt_cons, hA]
    dsimp only
    rw [lookupTermsSt_cons, hB]
    dsimp only
    rw [lookupTermsSt_nil]
  unfold parse_and_notSt
  rw [hsplit]
  dsimp only
  rw [hcls]
  dsimp only
  rw [if_neg (show ¬(([w, notWord] : List Str).isEmpty = true) from by simp)]
  rw [hlook]
  dsimp only
  rw [lookupTermsSt_nil]
  show intersectList [toSet (search_termSt idx w).1, toSet (search_termSt idx notWord).1] = _
  show listInter (toSet (search_termSt idx w).1) (toSet (search_termSt idx notWord).1) = _
  rw [search_termSt_fst, search_termSt_fst]
  rw [show normalize_text notWord = ("not").toList from by decide]

/-- C10 (witness): on the sample index, the clause `xyz NOT` returns the
intersection of the posting sets of `xyz` and `not`. -/
theorem c10_trailing_not_witness :
    (∀ c ∈ ("xyz").toList, isWS c = false) ∧
    (parse_and_notSt sampleIndex [] (("xyz").toList ++ (' ' :: notWord))).1 =
      listInter (toSet (postings sampleIndex.index (normalize_text (("xyz").toList))))
        (toSet (postings sampleIndex.index (("not").toList))) :=
  ⟨by decide,
   c10_trailing_not_positive sampleIndex [] (("xyz").toList)
     (by decide) (by decide) (by decide) (by decide) (by decide)⟩

/-! ## Claim C6: malformed parentheses degrade to the empty result -/

theorem findPhrasesAux_no_quote {s : Str} (h : ∀ c ∈ s, c ≠ '"') :
    ∀ st, findPhrasesAux s st = [] := by
  induction s with
  | nil => intro st; cases st <;> rfl
  | cons c cs ih =>
    intro st
    have hc : c ≠ '"' := h c (List.mem_cons_self c cs)
    have ih2 := ih (fun x hx => h x (List.mem_cons_of_mem c hx))
    cases st with
    | none =>
      show (if c = '"' then findPhrasesAux cs (some []) else findPhrasesAux cs none) = []
      rw [if_neg hc]
      exact ih2 none
    | some acc =>
      show (if c = '"' then
          if acc.isEmpty then findPhrasesAux cs (some [])
          else acc.reverse :: findPhrasesAux cs none
        else findPhrasesAux cs (some (c :: acc))) = []
      rw [if_neg hc]
      exact ih2 _

theorem mem_trim {c : Char} {s : Str} (h : c ∈ trim s) : c ∈ s := by
  unfold trim at h
  rw [List.mem_reverse] at h
  have h2 := (List.dropWhile_sublist isWS).mem h
  rw [List.mem_reverse] at h2
  exact (List.dropWhile_sublist isWS).mem h2

theorem parenLoopSt_succ_none (idx : Index) (fuel : Nat) (q : Str) (subs : Subs)
    (pid : Nat) (hp : '(' ∈ q) (hg : findGroup q = none) :
    parenLoopSt idx (fuel + 1) q subs pid = (none, idx) := by
  unfold parenLoopSt
  rw [if_pos hp, hg]

theorem parenLoopSt_succ_some (idx : Index) (fuel : Nat) (q : Str) (subs : Subs)
    (pid : Nat) (content : Str) (hp : '(' ∈ q) (hg : findGroup q = some content) :
    parenLoopSt idx (fuel + 1) q subs pid =
      parenLoopSt (evaluate_simple_querySt idx subs content).2 fuel
        (replaceFirst q ('(' :: content ++ [')']) (subPlaceholder pid))
        (alistSet subs (subPlaceholder pid) (evaluate_simple_querySt idx subs content).1)
        (pid + 1) := by
  conv_lhs => unfold parenLoopSt
  rw [if_pos hp, hg]

theorem parenLoopSt_no_paren (idx : Index) (fuel : Nat) (q : Str) (subs : Subs)
    (pid : Nat) (hp : '(' ∉ q) :
    parenLoopSt idx fuel q subs pid = (some (q, subs), idx) := by
  cases fuel with
  | zero => unfold parenLoopSt; rw [if_neg hp]
  | succ f => unfold parenLoopSt; rw [if_neg hp]

/-- On a quote-free query, the phrase stage is a no-op and
`_parse_boolean_query` goes straight to the parenthesis loop. -/
theorem parse_boolean_querySt_no_quote (idx : Index) (query : Str)
    (hq : ∀ c ∈ trim query, c ≠ '"') :
    parse_boolean_querySt idx query =
      match parenLoopSt idx ((trim query).count '(') (trim query) [] 0 with
      | (none, idx2) => ([], idx2)
      | (some qs, idx2) => ((evaluate_simple_querySt idx2 qs.2 qs.1).1,
                            (evaluate_simple_querySt idx2 qs.2 qs.1).2) := by
  have hph : findPhrases (trim query) = [] := findPhrasesAux_no_quote hq none
  unfold parse_boolean_querySt
  dsimp only
  rw [hph]
  rfl

/-- C6: for every quote-free query in which `'('` is present (after the
initial strip) but no innermost well-formed parenthesized group exists,
boolean-query evaluation returns the empty result set for the whole query
(without raising: the function is total). -/
theorem c6_malformed_parens_empty (idx : Index) (query : Str)
    (hq : ∀ c ∈ query, c ≠ '"')
    (hp : '(' ∈ trim query)
    (hg : findGroup (trim query) = none) :
    (parse_boolean_querySt idx query).1 = [] := by
  have hq2 : ∀ c ∈ trim query, c ≠ '"' := fun c hc => hq c (mem_trim hc)
  obtain ⟨k, hk⟩ : ∃ k, (trim query).count '(' = k + 1 := by
    have hcount : 0 < (trim query).count '(' := List.count_pos_iff.mpr hp
    exact ⟨(trim query).count '(' - 1, (Nat.succ_pred_eq_of_pos hcount).symm⟩
  rw [parse_boolean_querySt_no_quote idx query hq2, hk,
    parenLoopSt_succ_none idx k (trim query) [] 0 hp hg]

/-- C6 (witness): the unbalanced query `"(aa"` yields the empty result on
the sample index. -/
theorem c6_malformed_witness :
    '(' ∈ trim (("(aa").toList) ∧ findGroup (trim (("(aa").toList)) = none ∧
    (parse_boolean_querySt sampleIndex (("(aa").toList)).1 = [] :=
  ⟨by decide, by decide,
   c6_malformed_parens_empty sampleIndex (("(aa").toList)
     (by decide) (by decide) (by decide)⟩

/-! ## Claim C8: parenthesizing a whole flat expression is a no-op -/

theorem takeWhile_all_append {p : Char → Bool} {l1 : Str}
    (h : ∀ c ∈ l1, p c = true) (l2 : Str) :
    (l1 ++ l2).takeWhile p = l1 ++ l2.takeWhile p := by
  induction l1 with
  | nil => simp
  | cons a l ih =>
    rw [List.cons_append, List.takeWhile_cons,
      if_pos (h a (List.mem_cons_self a l)),
      ih (fun c hc => h c (List.mem_cons_of_mem a hc)), List.cons_append]

theorem dropWhile_all_append {p : Char → Bool} {l1 : Str}
    (h : ∀ c ∈ l1, p c = true) (l2 : Str) :
    (l1 ++ l2).dropWhile p = l2.dropWhile p := by
  induction l1 with
  | nil => simp
  | cons a l ih =>
    rw [List.cons_append, List.dropWhile_cons,
      if_pos (h a (List.mem_cons_self a l)),
      ih (fun c hc => h c (List.mem_cons_of_mem a hc))]

/-- `re.search(r'\(([^()]+)\)')` on a fully wrapped paren-free nonempty
expression finds exactly that expression. -/
theorem findGroup_wrap {X : Str} (hne : X ≠ []) (hnp : ∀ c ∈ X, notParen c = true) :
    findGroup ('(' :: X ++ [')']) = some X := by
  rw [List.cons_append]
  unfold findGroup
  rw [takeWhile_all_append hnp, dropWhile_all_append hnp]
  simp only [List.isEmpty_iff, hne]
  rw [show List.dropWhile notParen [')'] = [')'] from rfl,
    show List.takeWhile notParen [')'] = [] from rfl, List.append_nil]
  simp [hne]

theorem replaceFirst_self (s r : Str) : replaceFirst s s r = r := by
  cases s with
  | nil =>
    show (if ([] : Str).isPrefixOf [] then r else []) = r
    rw [if_pos (show ([] : Str).isPrefixOf [] = true from rfl)]
  | cons c cs =>
    show (if (c :: cs).isPrefixOf (c :: cs) then
        r ++ (c :: cs).drop (c :: cs).length else c :: replaceFirst cs (c :: cs) r) = r
    rw [if_pos (List.isPrefixOf_iff_prefix.mpr List.prefix_rfl),
      List.drop_length, List.append_nil]

theorem trim_cons_of_ends {a b : Char} (ha : isWS a = false) (hb : isWS b = false)
    (l : Str) : trim (a :: l ++ [b]) = a :: l ++ [b] := by
  unfold trim
  rw [List.cons_append, List.dropWhile_cons, if_neg (by simp [ha]), ← List.cons_append]
  have hrev : (a :: l ++ [b]).reverse = b :: (l.reverse ++ [a]) := by simp
  rw [hrev, List.dropWhile_cons, if_neg (by simp [hb]), ← hrev, List.reverse_reverse]

theorem nodup_listInsert {l : List Nat} {x : Nat} (h : l.Nodup) :
    (listInsert l x).Nodup := by
  unfold listInsert
  by_cases hx : x ∈ l
  · simpa [hx] using h
  · rw [if_neg hx]
    exact h.append (List.nodup_singleton x)
      (fun a ha hax => hx (by rw [List.mem_singleton] at hax; exact hax ▸ ha))

theorem nodup_listUnion {a : List Nat} (b : List Nat) (h : a.Nodup) :
    (listUnion a b).Nodup := by
  unfold listUnion
  induction b generalizing a with
  | nil => exact h
  | cons x xs ih => exact ih (nodup_listInsert h)

theorem nodup_evalOrPartsSt (idx : Index) (subs : Subs) (acc : List Nat)
    (ps : List Str) (h : acc.Nodup) : ((evalOrPartsSt idx subs acc ps).1).Nodup := by
  induction ps generalizing idx acc with
  | nil => exact h
  | cons p ps ih =>
    unfold evalOrPartsSt
    by_cases hp : (trim p).isEmpty = true
    · simpa [hp] using ih idx acc h
    · simp only [hp, Bool.false_eq_true, if_false]
      exact ih _ _ (nodup_listUnion _ h)

theorem nodup_evaluate_simple (idx : Index) (subs : Subs) (q : Str) :
    ((evaluate_simple_querySt idx subs q).1).Nodup :=
  nodup_evalOrPartsSt idx subs [] (orSplit q) List.nodup_nil

theorem foldl_listInsert_of_nodup :
    ∀ (l acc : List Nat), (acc ++ l).Nodup → l.foldl listInsert acc = acc ++ l := by
  intro l
  induction l with
  | nil => intro acc _; simp
  | cons x xs ih =>
    intro acc hnd
    rw [List.foldl_cons]
    have hx : x ∉ acc := by
      intro hx
      have := List.disjoint_of_nodup_append hnd
      exact this hx (List.mem_cons_self x xs)
    rw [show listInsert acc x = acc ++ [x] from by unfold listInsert; rw [if_neg hx]]
    rw [ih (acc ++ [x]) (by rwa [← List.append_cons] )]
    simp

theorem toSet_of_nodup {l : List Nat} (h : l.Nodup) : toSet l = l := by
  have := foldl_listInsert_of_nodup l [] (by simpa using h)
  simpa using this

theorem parse_and_not_single_placeholder (idx : Index) (R : List Nat) :
    parse_and_notSt idx [(subPlaceholder 0, R)] (subPlaceholder 0) = (R, idx) := by
  unfold parse_and_notSt
  rw [show splitWords (subPlaceholder 0) = [subPlaceholder 0] from by decide]
  dsimp only
  rw [show classify [subPlaceholder 0] = ([subPlaceholder 0], []) from by decide]
  dsimp only
  rw [if_neg (show ¬(([subPlaceholder 0] : List Str).isEmpty = true) from by decide)]
  rw [lookupTermsSt_cons]
  rw [show termResultSt idx [(subPlaceholder 0, R)] (subPlaceholder 0) = (R, idx) from by
    unfold termResultSt
    rw [if_pos (show isPlaceholder (subPlaceholder 0) = true from by decide)]
    unfold subGet
    rw [alistFind_cons, if_pos rfl]
    rfl]
  dsimp only
  rw [lookupTermsSt_nil]
  dsimp only
  rw [lookupTermsSt_nil]
  rfl

/-- Evaluating the flat query consisting of just the placeholder
`__SUB__0__` against a placeholder table binding it to `R` returns `R`. -/
theorem evaluate_simple_placeholder (idx : Index) (R : List Nat) (hnd : R.Nodup) :
    evaluate_simple_querySt idx [(subPlaceholder 0, R)] (subPlaceholder 0) = (R, idx) := by
  unfold evaluate_simple_querySt
  rw [show orSplit (subPlaceholder 0) = [subPlaceholder 0] from by decide]
  unfold evalOrPartsSt
  rw [if_neg (show ¬((trim (subPlaceholder 0)).isEmpty = true) from by decide)]
  rw [show trim (subPlaceholder 0) = subPlaceholder 0 from by decide]
  rw [parse_and_not_single_placeholder]
  dsimp only
  unfold evalOrPartsSt
  rw [show listUnion [] R = toSet R from rfl, toSet_of_nodup hnd]

/-- C8: for a flat expression `X` (no parentheses, no quotes, already
stripped), `search("(X)")` returns the same list of document ids as
`search("X")`: wrapping a whole flat expression in one pair of parentheses
is a no-op. -/
theorem c8_wrap_parens_noop (idx : Index) (X : Str) (hne : X ≠ [])
    (hflat : ∀ c ∈ X, c ≠ '(' ∧ c ≠ ')' ∧ c ≠ '"') (htrim : trim X = X) :
    (parse_boolean_querySt idx ('(' :: X ++ [')'])).1 =
      (parse_boolean_querySt idx X).1 := by
  have hXl : '(' ∉ X := fun hm => (hflat _ hm).1 rfl
  have hXq : ∀ c ∈ X, c ≠ '"' := fun c hc => (hflat c hc).2.2
  have hnp : ∀ c ∈ X, notParen c = true := by
    intro c hc
    unfold notParen
    simp [(hflat c hc).1, (hflat c hc).2.1]
  have htr : trim ('(' :: X ++ [')']) = '(' :: X ++ [')'] :=
    trim_cons_of_ends (show isWS '(' = false from rfl) (show isWS ')' = false from rfl) X
  have hq1 : ∀ c ∈ trim ('(' :: X ++ [')']), c ≠ '"' := by
    rw [htr]
    intro c hc
    rcases List.mem_cons.mp hc with rfl | hc
    · intro hcc; cases hcc
    · rcases List.mem_append.mp hc with hc | hc
      · exact (hflat c hc).2.2
      · rw [List.mem_singleton] at hc
        subst hc
        intro hcc; cases hcc
  have hcnt : ('(' :: X ++ [')']).count '(' = 0 + 1 := by
    simp [List.count_cons, List.count_append, List.count_eq_zero.mpr hXl]
  rw [parse_boolean_querySt_no_quote idx _ hq1,
    parse_boolean_querySt_no_quote idx X (by rw [htrim]; exact hXq)]
  rw [htr, htrim, hcnt, List.count_eq_zero.mpr hXl]
  rw [parenLoopSt_succ_some idx 0 ('(' :: X ++ [')']) [] 0 X
    (List.mem_cons_self _ _) (findGroup_wrap hne hnp)]
  rw [replaceFirst_self, evaluate_simple_querySt_snd]
  rw [parenLoopSt_no_paren idx 0 (subPlaceholder 0) _ 1 (by decide)]
  rw [parenLoopSt_no_paren idx 0 X [] 0 hXl]
  dsimp only
  rw [show alistSet ([] : Subs) (subPlaceholder 0) (evaluate_simple_querySt idx [] X).1 =
    [(subPlaceholder 0, (evaluate_simple_querySt idx [] X).1)] from rfl]
  rw [evaluate_simple_placeholder idx _ (nodup_evaluate_simple idx [] X)]

/-- C8 (witness): `search("(xyz)")` equals `search("xyz")` on the sample
index. -/
theorem c8_wrap_witness :
    trim (("xyz").toList) = ("xyz").toList ∧
    (parse_boolean_querySt sampleIndex ('(' :: ("xyz").toList ++ [')'])).1 =
      (parse_boolean_querySt sampleIndex (("xyz").toList)).1 :=
  ⟨by decide,
   c8_wrap_parens_noop sampleIndex (("xyz").toList) (by decide) (by decide) (by decide)⟩

/-! ## Claim C1: the empty group `()` aborts the whole query -/

theorem isPrefixOf_iff_append {t s : Str} :
    t.isPrefixOf s = true ↔ ∃ v, s = t ++ v := by
  rw [List.isPrefixOf_iff_prefix]
  constructor
  · rintro ⟨v, hv⟩
    exact ⟨v, hv.symm⟩
  · rintro ⟨v, rfl⟩
    exact ⟨v, rfl⟩

theorem occursIn_iff {t : Str} : ∀ {s : Str},
    occursIn t s = true ↔ ∃ u v, s = u ++ (t ++ v) := by
  intro s
  induction s with
  | nil =>
    show t.isEmpty = true ↔ _
    constructor
    · intro h
      rw [List.isEmpty_iff] at h
      exact ⟨[], [], by simp [h]⟩
    · rintro ⟨u, v, huv⟩
      rcases List.append_eq_nil.mp huv.symm with ⟨rfl, h2⟩
      rcases List.append_eq_nil.mp h2 with ⟨rfl, -⟩
      rfl
  | cons c cs ih =>
    show (t.isPrefixOf (c :: cs) || occursIn t cs) = true ↔ _
    rw [Bool.or_eq_true, ih, isPrefixOf_iff_append]
    constructor
    · rintro (⟨v, hv⟩ | ⟨u, v, huv⟩)
      · exact ⟨[], v, by simpa using hv⟩
      · exact ⟨c :: u, v, by simp [huv]⟩
    · rintro ⟨u, v, huv⟩
      cases u with
      | nil => exact Or.inl ⟨v, by simpa using huv⟩
      | cons u0 us =>
        rw [List.cons_append] at huv
        injection huv with h1 h2
        exact Or.inr ⟨us, v, h2⟩

theorem occursIn_append_left {t w : Str} (r : Str) (h : occursIn t w = true) :
    occursIn t (r ++ w) = true := by
  induction r with
  | nil => simpa using h
  | cons x rest ih =>
    show (t.isPrefixOf (x :: (rest ++ w)) || occursIn t (rest ++ w)) = true
    rw [ih]
    simp

theorem isPrefixOf_cons_cons (a b : Char) (as bs : Str) :
    (a :: as).isPrefixOf (b :: bs) = (a == b && as.isPrefixOf bs) := rfl


/-- Replacing the matched group `(content)` (nonempty, paren-free content)
cannot destroy an occurrence of the empty pair `()`: the occurrence cannot
overlap the matched segment. -/
theorem occursIn_pair_replaceFirst {tc r : Str}
    (hne : tc ≠ []) (hnp : ∀ c ∈ tc, notParen c = true) :
    ∀ {s : Str}, occursIn (['(', ')'] : Str) s = true →
      occursIn (['(', ')'] : Str) (replaceFirst s ('(' :: tc ++ [')']) r) = true := by
  intro s
  induction s with
  | nil =>
    intro h
    simp [occursIn] at h
  | cons c cs ih =>
    intro hocc
    by_cases hp : (('(' :: tc ++ [')']) : Str).isPrefixOf (c :: cs) = true
    · rw [show replaceFirst (c :: cs) ('(' :: tc ++ [')']) r =
          r ++ (c :: cs).drop (('(' :: tc ++ [')']) : Str).length from by
        conv_lhs => unfold replaceFirst
        rw [if_pos hp]]
      obtain ⟨w, hw⟩ := isPrefixOf_iff_append.mp hp
      rw [hw, List.drop_left]
      apply occursIn_append_left
      obtain ⟨u, v, huv⟩ := occursIn_iff.mp hocc
      rw [hw] at huv
      rcases List.append_eq_append_iff.mp huv.symm with
        ⟨a', hu2, hb⟩ | ⟨c', hu2, hd⟩
      · cases a' with
        | nil =>
          rw [List.nil_append] at hb
          exact occursIn_iff.mpr ⟨[], v, by simpa using hb.symm⟩
        | cons e es =>
          have hP : (['(', ')'] : Str) ++ v = '(' :: ')' :: v := rfl
          rw [hP, List.cons_append] at hb
          injection hb with he hb2
          subst he
          rw [List.cons_append] at hu2
          cases u with
          | nil =>
            rw [List.nil_append] at hu2
            injection hu2 with h9 hu3
            rw [← hu3] at hb2
            cases htc : tc with
            | nil => exact absurd htc hne
            | cons c0 tc2 =>
              rw [htc, List.cons_append, List.cons_append] at hb2
              injection hb2 with hb3 h8
              have hc0 := hnp c0 (htc ▸ List.mem_cons_self c0 tc2)
              rw [← hb3] at hc0
              cases hc0
          | cons u0 us =>
            rw [List.cons_append] at hu2
            injection hu2 with h9 hu3
            have hmem : '(' ∈ us ++ '(' :: es :=
              List.mem_append_right us (List.mem_cons_self '(' es)
            rw [← hu3] at hmem
            rcases List.mem_append.mp hmem with hm | hm
            · have hq := hnp '(' hm
              cases hq
            · rw [List.mem_singleton] at hm
              cases hm
      · exact occursIn_iff.mpr ⟨c', v, hd⟩
    · rw [show replaceFirst (c :: cs) ('(' :: tc ++ [')']) r =
          c :: replaceFirst cs ('(' :: tc ++ [')']) r from by
        conv_lhs => unfold replaceFirst
        rw [if_neg hp]]
      have hocc2 : ((['(', ')'] : Str).isPrefixOf (c :: cs) ||
          occursIn (['(', ')'] : Str) cs) = true := hocc
      rw [Bool.or_eq_true] at hocc2
      rcases hocc2 with hl | hr
      · obtain ⟨v, hv⟩ := isPrefixOf_iff_append.mp hl
        have hv2 : c :: cs = '(' :: ')' :: v := hv
        injection hv2 with hc2 hcs2
        subst hc2
        rw [hcs2]
        rw [show replaceFirst (')' :: v) ('(' :: tc ++ [')']) r =
            ')' :: replaceFirst v ('(' :: tc ++ [')']) r from by
          conv_lhs => unfold replaceFirst
          rw [if_neg (by
            rw [show (('(' :: tc ++ [')']) : Str).isPrefixOf (')' :: v) =
              (('(' : Char) == ')' && (tc ++ [')']).isPrefixOf v) from rfl]
            simp)]]
        show ((['(', ')'] : Str).isPrefixOf
            ('(' :: ')' :: replaceFirst v ('(' :: tc ++ [')']) r) ||
          occursIn (['(', ')'] : Str) (')' :: replaceFirst v ('(' :: tc ++ [')']) r)) = true
        rw [isPrefixOf_cons_cons, isPrefixOf_cons_cons]
        simp [List.isPrefixOf_iff_prefix]
      · show ((['(', ')'] : Str).isPrefixOf
            (c :: replaceFirst cs ('(' :: tc ++ [')']) r) ||
          occursIn (['(', ')'] : Str) (replaceFirst cs ('(' :: tc ++ [')']) r)) = true
        rw [ih hr]
        simp

theorem findGroup_sound : ∀ {q content : Str}, findGroup q = some content →
    content ≠ [] ∧ ∀ c ∈ content, notParen c = true := by
  intro q
  induction q with
  | nil => intro content h; cases h
  | cons c cs ih =>
    intro content h
    unfold findGroup at h
    split at h
    · dsimp only at h
      split at h
      · split at h
        · exact ih h
        · injection h with h2
          subst h2
          rename_i he
          refine ⟨by simpa [List.isEmpty_iff] using he, ?_⟩
          intro x hx
          exact List.mem_takeWhile_imp hx
      · exact ih h
    · exact ih h

/-- As long as the (quote-stripped) query contains the empty pair `()`,
the parenthesis loop ends in the malformed branch. -/
theorem parenLoopSt_pair_none (fuel : Nat) :
    ∀ (idx : Index) (q : Str) (subs : Subs) (pid : Nat),
      occursIn (['(', ')'] : Str) q = true →
      (parenLoopSt idx fuel q subs pid).1 = none := by
  induction fuel with
  | zero =>
    intro idx q subs pid hocc
    obtain ⟨u, v, rfl⟩ := occursIn_iff.mp hocc
    have hp : '(' ∈ u ++ ((['(', ')'] : Str) ++ v) := by simp
    unfold parenLoopSt
    rw [if_pos hp]
  | succ fuel ih =>
    intro idx q subs pid hocc
    have hp : '(' ∈ q := by
      obtain ⟨u, v, rfl⟩ := occursIn_iff.mp hocc
      simp
    cases hg : findGroup q with
    | none => rw [parenLoopSt_succ_none idx fuel q subs pid hp hg]
    | some content =>
      obtain ⟨hne, hnp⟩ := findGroup_sound hg
      rw [parenLoopSt_succ_some idx fuel q subs pid content hp hg]
      exact ih _ _ _ _ (occursIn_pair_replaceFirst hne hnp hocc)

/-- C1 (amended): the code never evaluates an empty group `()` to an empty
set for that group: the group regex requires nonempty content, so a query
whose trimmed, quote-free text contains `()` makes the whole boolean
evaluation abort with the empty result set — under `AND` this coincides
with the claimed behavior, but `X OR ()` also returns the empty set, not
`search(X)`. -/
theorem c1_amended_empty_group_aborts (idx : Index) (query : Str)
    (hq : ∀ c ∈ query, c ≠ '"')
    (hocc : occursIn (['(', ')'] : Str) (trim query) = true) :
    (parse_boolean_querySt idx query).1 = [] := by
  have hq2 : ∀ c ∈ trim query, c ≠ '"' := fun c hc => hq c (mem_trim hc)
  rw [parse_boolean_querySt_no_quote idx query hq2]
  have hnone := parenLoopSt_pair_none ((trim query).count '(')
    idx (trim query) [] 0 hocc
  cases hl : parenLoopSt idx ((trim query).count '(') (trim query) [] 0 with
  | mk o idx2 =>
    rw [hl] at hnone
    cases o with
    | none => rfl
    | some qs => cases hnone

/-- C1 (counterexample): on the sample index, `search("aaa")` returns
`{0, 1}` but `search("aaa OR ()")` returns the empty set: an empty group
does not propagate through `OR` by set algebra as the claim states. -/
theorem c1_counterexample :
    (parse_boolean_querySt sampleIndex (("aaa OR ()").toList)).1 = [] ∧
    (parse_boolean_querySt sampleIndex (("aaa").toList)).1 = [0, 1] ∧
    (parse_boolean_querySt sampleIndex (("aaa OR ()").toList)).1 ≠
      (parse_boolean_querySt sampleIndex (("aaa").toList)).1 := by
  decide

/-- C1 (witness): the amended statement evaluated at the concrete query
`"aaa OR ()"`. -/
theorem c1_amended_witness :
    occursIn (['(', ')'] : Str) (trim (("aaa OR ()").toList)) = true ∧
    (parse_boolean_querySt sampleIndex (("aaa OR ()").toList)).1 = [] :=
  ⟨by decide,
   c1_amended_empty_group_aborts sampleIndex (("aaa OR ()").toList)
     (by decide) (by decide)⟩

/-! ## Claims C4 and C5: retention, stable descending sort, and scoring -/

theorem mkResult_id (idx : Index) (qts : List Str) (d : Nat) :
    (mkResult idx qts d).id = d := rfl

theorem insertDesc_perm (x : SearchResult) (l : List SearchResult) :
    (insertDesc x l).Perm (x :: l) := by
  induction l with
  | nil => exact List.Perm.refl _
  | cons y ys ih =>
    unfold insertDesc
    by_cases h : x.score ≤ y.score
    · rw [if_pos h]
      exact (ih.cons y).trans (List.Perm.swap x y ys)
    · rw [if_neg h]

theorem mem_insertDesc {b x : SearchResult} {l : List SearchResult} :
    b ∈ insertDesc x l ↔ b = x ∨ b ∈ l := by
  rw [(insertDesc_perm x l).mem_iff, List.mem_cons]

theorem stableSortDesc_foldl_perm :
    ∀ (l acc : List SearchResult),
      (l.foldl (fun acc x => insertDesc x acc) acc).Perm (acc ++ l) := by
  intro l
  induction l with
  | nil => intro acc; simp
  | cons x xs ih =>
    intro acc
    rw [List.foldl_cons]
    refine (ih (insertDesc x acc)).trans ?_
    refine ((insertDesc_perm x acc).append_right xs).trans ?_
    rw [List.cons_append]
    exact List.perm_middle.symm

theorem stableSortDesc_perm (l : List SearchResult) : (stableSortDesc l).Perm l := by
  simpa using stableSortDesc_foldl_perm l []

theorem insertDesc_pairwise {x : SearchResult} {l : List SearchResult}
    (h : l.Pairwise (fun a b => b.score ≤ a.score)) :
    (insertDesc x l).Pairwise (fun a b => b.score ≤ a.score) := by
  induction l with
  | nil => simp [insertDesc]
  | cons y ys ih =>
    have h2 := List.pairwise_cons.mp h
    unfold insertDesc
    by_cases hxy : x.score ≤ y.score
    · rw [if_pos hxy]
      rw [List.pairwise_cons]
      refine ⟨?_, ih h2.2⟩
      intro b hb
      rcases mem_insertDesc.mp hb with rfl | hb
      · exact hxy
      · exact h2.1 b hb
    · rw [if_neg hxy]
      push_neg at hxy
      rw [List.pairwise_cons]
      refine ⟨?_, h⟩
      intro b hb
      rcases List.mem_cons.mp hb with rfl | hb
      · omega
      · have := h2.1 b hb
        omega

theorem stableSortDesc_pairwise (l : List SearchResult) :
    (stableSortDesc l).Pairwise (fun a b => b.score ≤ a.score) := by
  suffices h : ∀ acc, acc.Pairwise (fun a b => b.score ≤ a.score) →
      (l.foldl (fun acc x => insertDesc x acc) acc).Pairwise
        (fun a b => b.score ≤ a.score) from h [] List.Pairwise.nil
  induction l with
  | nil => intro acc hacc; exact hacc
  | cons x xs ih =>
    intro acc hacc
    rw [List.foldl_cons]
    exact ih (insertDesc x acc) (insertDesc_pairwise hacc)

theorem insertDesc_filter (s : Nat) {x : SearchResult} {l : List SearchResult}
    (h : l.Pairwise (fun a b => b.score ≤ a.score)) :
    (insertDesc x l).filter (fun r => decide (r.score = s)) =
      if x.score = s then l.filter (fun r => decide (r.score = s)) ++ [x]
      else l.filter (fun r => decide (r.score = s)) := by
  induction l with
  | nil =>
    unfold insertDesc
    by_cases hx : x.score = s <;> simp [hx]
  | cons y ys ih =>
    have h2 := List.pairwise_cons.mp h
    unfold insertDesc
    by_cases hxy : x.score ≤ y.score
    · rw [if_pos hxy]
      rw [List.filter_cons, ih h2.2]
      by_cases hy : y.score = s <;> by_cases hx : x.score = s <;>
        simp [hy, hx, List.filter_cons]
    · rw [if_neg hxy]
      push_neg at hxy
      by_cases hx : x.score = s
      · rw [if_pos hx]
        have hempty : (y :: ys).filter (fun r => decide (r.score = s)) = [] := by
          rw [List.filter_eq_nil_iff]
          intro a ha
          have hle : a.score ≤ y.score := by
            rcases List.mem_cons.mp ha with rfl | ha
            · exact Nat.le_refl _
            · exact h2.1 a ha
          simp only [decide_eq_true_eq]
          omega
        rw [List.filter_cons, hempty]
        simp [hx]
      · rw [if_neg hx]
        rw [List.filter_cons]
        simp [hx]

theorem stableSortDesc_foldl_filter (s : Nat) :
    ∀ (l acc : List SearchResult),
      acc.Pairwise (fun a b => b.score ≤ a.score) →
      (l.foldl (fun acc x => insertDesc x acc) acc).filter
          (fun r => decide (r.score = s)) =
        acc.filter (fun r => decide (r.score = s)) ++
          l.filter (fun r => decide (r.score = s)) := by
  intro l
  induction l with
  | nil => intro acc _; simp
  | cons x xs ih =>
    intro acc hacc
    rw [List.foldl_cons, ih (insertDesc x acc) (insertDesc_pairwise hacc),
      insertDesc_filter s hacc, List.filter_cons]
    by_cases hx : x.score = s
    · simp [hx]
    · simp [hx]

theorem stableSortDesc_filter (s : Nat) (l : List SearchResult) :
    (stableSortDesc l).filter (fun r => decide (r.score = s)) =
      l.filter (fun r => decide (r.score = s)) := by
  simpa using stableSortDesc_foldl_filter s l [] List.Pairwise.nil

/-- A blank (whitespace-only) query evaluates to the empty id list. -/
theorem parse_boolean_blank (idx : Index) (query : Str)
    (h : (trim query).isEmpty = true) :
    (parse_boolean_querySt idx query).1 = [] := by
  rw [List.isEmpty_iff] at h
  have hq2 : ∀ c ∈ trim query, c ≠ '"' := by
    rw [h]
    intro c hc
    cases hc
  rw [parse_boolean_querySt_no_quote idx query hq2, h]
  rw [show ([] : Str).count '(' = 0 from rfl]
  rw [parenLoopSt_no_paren idx 0 [] [] 0 (by simp)]
  rfl

/-- `CNSSearchEngine.search` returns the first `max_results` of the stable
descending sort of the retained (truncated-before-scoring) results, in
every branch. -/
theorem engineSearchSt_fst_eq (idx : Index) (query : Str) (maxR : Nat) :
    (engineSearchSt idx query maxR).1 =
      (stableSortDesc (retainedResults idx query maxR)).take maxR := by
  unfold engineSearchSt
  by_cases h1 : (trim query).isEmpty = true
  · rw [if_pos h1]
    have hr : retainedResults idx query maxR = [] := by
      unfold retainedResults retainedIds
      rw [parse_boolean_blank idx query h1]
      simp
    rw [hr]
    simp [stableSortDesc]
  · rw [if_neg h1]
    dsimp only
    by_cases h2 : (parse_boolean_querySt idx query).1.isEmpty = true
    · rw [if_pos h2]
      have he : (parse_boolean_querySt idx query).1 = [] := List.isEmpty_iff.mp h2
      have hr : retainedResults idx query maxR = [] := by
        unfold retainedResults retainedIds
        rw [he]
        simp
      rw [hr]
      simp [stableSortDesc]
    · rw [if_neg h2]
      rfl

theorem retainedResults_length (idx : Index) (query : Str) (maxR : Nat) :
    (retainedResults idx query maxR).length ≤ maxR := by
  unfold retainedResults retainedIds
  rw [List.length_map]
  exact List.length_take_le _ _

theorem engine_take_collapse (idx : Index) (query : Str) (maxR : Nat) :
    (engineSearchSt idx query maxR).1 =
      stableSortDesc (retainedResults idx query maxR) := by
  rw [engineSearchSt_fst_eq]
  refine List.take_of_length_le ?_
  rw [(stableSortDesc_perm _).length_eq]
  exact retainedResults_length idx query maxR

theorem engine_result_perm (idx : Index) (query : Str) (maxR : Nat) :
    (engineSearchSt idx query maxR).1.Perm (retainedResults idx query maxR) := by
  rw [engine_take_collapse]
  exact stableSortDesc_perm _

theorem engine_result_length (idx : Index) (query : Str) (maxR : Nat) :
    (engineSearchSt idx query maxR).1.length ≤ maxR := by
  rw [(engine_result_perm idx query maxR).length_eq]
  exact retainedResults_length idx query maxR

theorem engine_result_pairwise (idx : Index) (query : Str) (maxR : Nat) :
    (engineSearchSt idx query maxR).1.Pairwise (fun a b => b.score ≤ a.score) := by
  rw [engine_take_collapse]
  exact stableSortDesc_pairwise _

theorem engine_result_filter (idx : Index) (query : Str) (maxR : Nat) (s : Nat) :
    (engineSearchSt idx query maxR).1.filter (fun r => decide (r.score = s)) =
      (retainedResults idx query maxR).filter (fun r => decide (r.score = s)) := by
  rw [engine_take_collapse]
  exact stableSortDesc_filter s _

/-- C4: `CNSSearchEngine.search` truncates the matching ids to the first
`max_results` in the underlying order *before* scoring (only those ids are
scored and snippet-extracted, which is what `retainedResults` expresses),
and returns at most `max_results` records sorted descending by score with
a stable sort: for every score value the records with that score appear in
their pre-sort relative order. -/
theorem c4_truncate_then_stable_sort (idx : Index) (query : Str) (maxR : Nat) :
    (engineSearchSt idx query maxR).1.length ≤ maxR ∧
    (engineSearchSt idx query maxR).1.Pairwise (fun a b => b.score ≤ a.score) ∧
    (engineSearchSt idx query maxR).1.Perm (retainedResults idx query maxR) ∧
    ∀ s, (engineSearchSt idx query maxR).1.filter (fun r => decide (r.score = s)) =
      (retainedResults idx query maxR).filter (fun r => decide (r.score = s)) :=
  ⟨engine_result_length idx query maxR,
   engine_result_pairwise idx query maxR,
   engine_result_perm idx query maxR,
   engine_result_filter idx query maxR⟩

theorem foldl_title_score (qts tt : List Str) :
    ∀ n : Nat, qts.foldl (fun s token => if token ∈ tt then s + 3 else s) n =
      n + 3 * qts.countP (fun t => decide (t ∈ tt)) := by
  induction qts with
  | nil => intro n; simp
  | cons t ts ih =>
    intro n
    rw [List.foldl_cons, List.countP_cons]
    by_cases h : t ∈ tt
    · rw [if_pos h, ih]
      simp only [h, decide_eq_true_eq]
      rw [if_pos (by simp [h])]
      omega
    · rw [if_neg h, ih]
      rw [if_neg (by simpa using h)]
      omega

theorem foldl_body_score (qts pt : List Str) :
    ∀ n : Nat, qts.foldl (fun s token => s + pt.count token) n =
      n + (qts.map (fun t => pt.count t)).sum := by
  induction qts with
  | nil => intro n; simp
  | cons t ts ih =>
    intro n
    rw [List.foldl_cons, ih, List.map_cons, List.sum_cons]
    omega

/-- `_calculate_score` in closed form. -/
theorem calculate_score_formula (doc : Doc) (qts : List Str) :
    calculate_score doc qts =
      3 * qts.countP (fun t => decide (t ∈ tokenizeOpt doc.titulo)) +
      (qts.map (fun t => (tokenizeOpt doc.texto).count t)).sum := by
  unfold calculate_score
  cases doc.titulo <;> cases doc.texto <;>
    simp [tokenizeOpt, foldl_title_score, foldl_body_score]

/-- C5: the score is `3.0` per query token in the normalized title token
set plus `1.0` per occurrence in the normalized body token list; a document
sharing no tokens with the query scores `0.0`; scoring never excludes (the
returned ids are a permutation of the retained ids, whatever the scores);
and on the spec's examples D1 scores 3.0, D2 scores 5.0. -/
theorem c5_score_formula_and_inclusion (doc : Doc) (qts : List Str)
    (idx : Index) (query : Str) (maxR : Nat) :
    (calculate_score doc qts =
      3 * qts.countP (fun t => decide (t ∈ tokenizeOpt doc.titulo)) +
      (qts.map (fun t => (tokenizeOpt doc.texto).count t)).sum) ∧
    ((∀ t ∈ qts, t ∉ tokenizeOpt doc.titulo ∧ t ∉ tokenizeOpt doc.texto) →
      calculate_score doc qts = 0) ∧
    ((engineSearchSt idx query maxR).1.map (fun r => r.id)).Perm
      (retainedIds idx query maxR) ∧
    calculate_score exampleD1 [("medicina").toList] = 3 ∧
    calculate_score exampleD2 [("medicina").toList] = 5 := by
  refine ⟨calculate_score_formula doc qts, ?_, ?_, by decide, by decide⟩
  · intro h
    rw [calculate_score_formula]
    rw [List.countP_eq_zero.mpr (fun a ha => by simpa using (h a ha).1)]
    have hsum : (qts.map (fun t => (tokenizeOpt doc.texto).count t)).sum = 0 :=
      List.sum_eq_zero (fun x hx => by
        obtain ⟨t, ht, rfl⟩ := List.mem_map.mp hx
        exact List.count_eq_zero.mpr (h t ht).2)
    rw [hsum]
  · have hperm := (engine_result_perm idx query maxR).map (fun r => r.id)
    refine hperm.trans ?_
    unfold retainedResults
    rw [List.map_map]
    have : ((fun r => r.id) ∘ mkResult (parse_boolean_querySt idx query).2
        (tokenize query)) = id := by
      funext d
      rfl
    rw [this, List.map_id]

/-- C5 (witness): a document with no overlapping tokens scores zero. -/
theorem c5_score_witness :
    (∀ t ∈ [("qqq").toList], t ∉ tokenizeOpt exampleD1.titulo ∧
      t ∉ tokenizeOpt exampleD1.texto) ∧
    calculate_score exampleD1 [("qqq").toList] = 0 :=
  ⟨by decide,
   (c5_score_formula_and_inclusion exampleD1 [("qqq").toList]
     sampleIndex (("aaa").toList) 2).2.1 (by decide)⟩
